import Mathlib

/-!
Verification of the rust-kaleidoscope front end and lowering stage.

The development shallowly embeds the repository's source files:

* `src/lexer.rs`   — the `Token` type (the lexer itself is only the parser's
  input contract; claims are stated over token sequences directly);
* `src/ast.rs`     — `Expr` and `Function`;
* `src/parser.rs`  — `ParserContext`: the precedence table, `get_precedence`,
  `parse_binop_rhs`, `parse_primary`, `parse_unary`, `parse_expression`,
  `parse_proto`, `parse_function_definition`, `parse_extrn` (source name:
  parse_extern), `parse_top_level_expression` and the top-level `parse` loop;
* `src/codegen.rs` — the runtime semantics of the lowered control-flow-graph
  code, given as a fuel-indexed evaluator `evalExpr` with one case per arm of
  `Expr::codegen`, plus the unit-level driver `CodegenContext::codegen` and
  `finalize` as `runUnit`;
* `src/externs.rs` — `FfiRegistry` (`printd`, `putchard`) as `ffiCall`,
  recording emitted output in an observable trace.

IEEE binary64 values are modelled exactly as unnormalised rationals
(`F64.num n d`, value `n / d`, `d` kept positive by all operations) together
with a `nan` element.  The arithmetic the claims exercise (small integers,
comparison widening to 0.0/1.0, and `0.0/0.0`) is exact in binary64, so the
model agrees with the machine semantics on every evaluation appearing below.
Infinities (produced by IEEE `x/0` with `x ≠ 0`) are not modelled; `F64.div`
maps every division by zero to `nan`, and no claim evaluates such a division
with a nonzero numerator.
-/

namespace RustKal

/-- Model of an IEEE binary64 value: an exact rational `n / d` or NaN. -/
inductive F64 where
  | num (n : Int) (d : Nat)
  | nan
  deriving DecidableEq, Repr

/-- Floating addition (`build_float_add`): exact on finite values, NaN propagates. -/
def F64.add : F64 → F64 → F64
  | .num a b, .num c d => .num (a * d + c * b) (b * d)
  | _, _ => .nan

/-- Floating subtraction (`build_float_sub`). -/
def F64.sub : F64 → F64 → F64
  | .num a b, .num c d => .num (a * d - c * b) (b * d)
  | _, _ => .nan

/-- Floating multiplication (`build_float_mul`). -/
def F64.mul : F64 → F64 → F64
  | .num a b, .num c d => .num (a * c) (b * d)
  | _, _ => .nan

/-- Floating division (`build_float_div`): `0.0/0.0` is NaN (exactly as in
IEEE); any NaN operand gives NaN.  Division by zero with nonzero numerator
(IEEE infinity) is mapped to NaN as well — no claim exercises it. -/
def F64.div : F64 → F64 → F64
  | .num a b, .num c d =>
      if c = 0 then .nan
      else .num (if c < 0 then -(a * d) else a * d) (b * c.natAbs)
  | _, _ => .nan

/-- LLVM `FCMP_ONE` (FloatPredicate::ONE): ordered-and-not-equal.  False
whenever either operand is NaN. -/
def F64.fcmpONE : F64 → F64 → Bool
  | .num a b, .num c d => a * d ≠ c * b
  | _, _ => false

/-- LLVM `FCMP_ULT` (FloatPredicate::ULT): unordered-or-less-than.  True
whenever either operand is NaN. -/
def F64.fcmpULT : F64 → F64 → Bool
  | .num a b, .num c d => a * d < c * b
  | _, _ => true

/-- LLVM `FCMP_UGT` (FloatPredicate::UGT): unordered-or-greater-than. -/
def F64.fcmpUGT : F64 → F64 → Bool
  | .num a b, .num c d => a * d > c * b
  | _, _ => true

/-- `build_unsigned_int_to_float` applied to a comparison bit: widen to 0.0/1.0. -/
def boolToF64 (b : Bool) : F64 := if b then .num 1 1 else .num 0 1

/-- Tokens, mirroring `src/lexer.rs`.  `Extrn` models the source's extern
keyword token; numbers carry the modelled f64 payload. -/
inductive Token where
  | Eof
  | Def
  | Extrn
  | Identifier (s : String)
  | Number (v : F64)
  | LParen (c : Char)
  | RParen (c : Char)
  | Plus (c : Char)
  | Minus (c : Char)
  | Star (c : Char)
  | Slash (c : Char)
  | Comma (c : Char)
  | Less (c : Char)
  | Greater (c : Char)
  | If
  | Else
  | Var
  | Then
  | For
  | In
  | Assign (c : Char)
  | Bang (c : Char)
  | Pipe (c : Char)
  | Ampersand (c : Char)
  | Caret (c : Char)
  | Percent (c : Char)
  | Dollar (c : Char)
  | At (c : Char)
  | Tilde (c : Char)
  | Binary (c : Char)
  | Unary (c : Char)
  deriving DecidableEq, Repr

/-- Expressions, mirroring `src/ast.rs`.  `If`'s fields are condition/then/els
(`thenE` because `then` is reserved in Lean); `For`'s are
ident/start/end/step/body (`endE` likewise). -/
inductive Expr where
  | Number (v : F64)
  | Variable (name : String)
  | BinOp (left : Expr) (op : Token) (right : Expr)
  | Call (identifier : String) (args : List Expr)
  | If (condition : Expr) (thenE : Expr) (els : Expr)
  | For (ident : String) (start : Expr) (endE : Expr) (step : Option Expr) (body : Expr)
  | Unary (op : Char) (left : Expr)
  | Var (varnames : List (String × Option Expr)) (body : Expr)
  | None
  deriving Repr

/-- Functions, mirroring `src/ast.rs`. -/
structure Function where
  name : String
  args : List String
  body : Expr
  is_operator : Bool
  precedence : Option F64
  deriving Repr

/-- Runtime state of the lowered program: the addressable mutable cells
(`alloca` results, addressed by allocation order), the live variable-to-cell
mapping (`CodegenContext::vars`), and the output emitted through the FFI. -/
structure State where
  store : List F64
  vars : String → Option Nat
  out : List F64

def emptyVars : String → Option Nat := fun _ => Option.none

/-- `HashMap::insert` on the variable-to-cell mapping. -/
def insertVar (m : String → Option Nat) (k : String) (v : Nat) : String → Option Nat :=
  fun x => if x = k then some v else m x

/-- `HashMap::remove` on the variable-to-cell mapping. -/
def removeVar (m : String → Option Nat) (k : String) : String → Option Nat :=
  fun x => if x = k then Option.none else m x

def initState : State := ⟨[], emptyVars, []⟩

/-- `Module::get_function`: the module holds every declared function, first
definition wins (`Function::codegen` skips re-declarations). -/
def get_function (M : List Function) (name : String) : Option Function :=
  M.find? (fun f => f.name == name)

/-- `create_entryblock_alloc`: one fresh f64 cell.  The cell is uninitialised
(LLVM undef) until the first store; it is modelled as 0.0, and every lowering
path stores into the cell before any load can see it. -/
def allocCell (st : State) : State × Nat :=
  (⟨st.store ++ [F64.num 0 1], st.vars, st.out⟩, st.store.length)

/-- `build_store` into an existing cell. -/
def storeCell (st : State) (a : Nat) (v : F64) : State :=
  {st with store := st.store.set a v}

/-- Call-argument evaluation, left to right (`Expr::Call` arm). -/
def evalArgsWith (ev : Expr → State → Option (State × F64)) :
    List Expr → State → Option (State × List F64)
  | [], st => some (st, [])
  | e :: es, st =>
      (ev e st).bind fun p =>
        (evalArgsWith ev es p.1).bind fun q =>
          some (q.1, p.2 :: q.2)

/-- `FfiRegistry` (src/externs.rs): the two native symbols.  `printd` prints
its argument, `putchard` prints it as a character; both are modelled as
appending the argument to the output trace and returning 0.0. -/
def ffiCall (name : String) (vals : List F64) (st : State) : Option (State × F64) :=
  match name, vals with
  | "printd", [a] => some ({st with out := st.out ++ [a]}, F64.num 0 1)
  | "putchard", [a] => some ({st with out := st.out ++ [a]}, F64.num 0 1)
  | _, _ => Option.none

/-- Parameter setup of `Function::codegen`: one cell per parameter holding the
incoming value (alloca followed by store). -/
def allocParams : State → List F64 → State × List Nat
  | st, [] => (st, [])
  | st, v :: vs =>
      let a := st.store.length
      let st1 : State := {st with store := st.store ++ [v]}
      let (st2, rest) := allocParams st1 vs
      (st2, a :: rest)

/-- Parameter binding of `Function::codegen`: `vars` is cleared and each
parameter name is inserted in order. -/
def bindParams (ns : List String) (addrs : List Nat) : String → Option Nat :=
  (ns.zip addrs).foldl (fun m p => insertVar m p.1 p.2) emptyVars

/-- The test `matches!(body, Expr::None)` marking a bodiless declaration. -/
def Expr.isNone : Expr → Bool
  | .None => true
  | _ => false

/-- Runtime semantics of a call to a lowered function: a bodiless declaration
dispatches to the FFI registry; a defined function runs its body in a frame
where only the parameters are bound, then control returns to the caller's
variable mapping. -/
def callFn (ev : Expr → State → Option (State × F64)) (callerVars : String → Option Nat)
    (f : Function) (vals : List F64) (st : State) : Option (State × F64) :=
  if f.body.isNone then ffiCall f.name vals st
  else
    let ap := allocParams {st with vars := emptyVars} vals
    (ev f.body {ap.1 with vars := bindParams f.args ap.2}).bind fun q =>
      some ({q.1 with vars := callerVars}, q.2)

/-- One trip around the loop block emitted for `Expr::For`, in emission order:
body (value discarded), step (default 1.0), end condition, then load the
induction cell, add the step and store back.  The returned flag is the
`FCMP_ONE` branch-back test, computed from the end-condition value that was
evaluated before the increment. -/
def forStep (ev : Expr → State → Option (State × F64)) (addr : Nat) (endE : Expr)
    (step : Option Expr) (body : Expr) (st : State) : Option (State × Bool) :=
  (ev body st).bind fun pb =>
    (match step with
      | some s => ev s pb.1
      | Option.none => some (pb.1, F64.num 1 1)).bind fun ps =>
      (ev endE ps.1).bind fun pe =>
        (pe.1.store.get? addr).bind fun cur =>
          some (storeCell pe.1 addr (F64.add cur ps.2), F64.fcmpONE pe.2 (F64.num 0 1))

/-- The loop's back edge: run `stepF` and branch back while its flag is true. -/
def iterateLoop (stepF : State → Option (State × Bool)) : Nat → State → Option State
  | 0, _ => Option.none
  | n+1, st =>
      (stepF st).bind fun p =>
        if p.2 then iterateLoop stepF n p.1 else some p.1

/-- A declaration's initialiser value: the optional initialiser evaluated in
the current scope, defaulting to the constant 0.0. -/
def initVal (ev : Expr → State → Option (State × F64)) (initE : Option Expr) (st : State) :
    Option (State × F64) :=
  match initE with
  | some e => ev e st
  | Option.none => some (st, F64.num 0 1)

/-- The declaration loop of `Expr::Var`: initialiser (default 0.0) evaluated in
the current scope, fresh cell allocated and stored, the prior binding (if any)
pushed onto `old_bindings`, and the new binding inserted.  Returns the final
state and `old_bindings` in push order. -/
def evalDeclsWith (ev : Expr → State → Option (State × F64)) :
    List (String × Option Expr) → State → Option (State × List (String × Nat))
  | [], st => some (st, [])
  | (name, initE) :: rest, st =>
      (initVal ev initE st).bind fun p =>
        (evalDeclsWith ev rest
            (State.mk (p.1.store ++ [p.2])
              (insertVar p.1.vars name p.1.store.length) p.1.out)).bind fun q =>
          some (q.1,
            (match p.1.vars name with
              | some o => [(name, o)]
              | Option.none => []) ++ q.2)

/-- The restore loop at the end of `Expr::Var`: re-insert every shadowed
binding, in push order. -/
def restoreBindings (olds : List (String × Nat)) (m : String → Option Nat) :
    String → Option Nat :=
  olds.foldl (fun m p => insertVar m p.1 p.2) m

/-- The operator character carried by a binary-operator token, as extracted in
the `Expr::BinOp` arm of `Expr::codegen` — note `Assign` is NOT in this list
(the assignment special case is handled before it). -/
def binOpChar : Token → Option Char
  | .Plus c => some c
  | .Minus c => some c
  | .Star c => some c
  | .Slash c => some c
  | .Less c => some c
  | .Greater c => some c
  | .Bang c => some c
  | .Pipe c => some c
  | .Ampersand c => some c
  | .Caret c => some c
  | .Percent c => some c
  | .Dollar c => some c
  | .At c => some c
  | .Tilde c => some c
  | _ => Option.none

/-- Runtime semantics of the code lowered by `Expr::codegen` (src/codegen.rs),
one case per arm, as a fuel-indexed evaluator over the module `M` (the list of
parsed Functions; name resolution is `get_function`).  `Option.none` covers
both lowering-time failures of the evaluated expression (unknown variable,
unknown function or operator, malformed assignment target) and fuel
exhaustion.  Lowering-time failures of code that is never evaluated (for
example the branch of a conditional that is not taken) are outside this
runtime model. -/
def evalExpr (M : List Function) : Nat → Expr → State → Option (State × F64)
  | 0, _, _ => Option.none
  | fuel+1, e, st =>
    match e with
    | .Number v => some (st, v)
    | .Variable name => do
        let a ← st.vars name
        let v ← st.store.get? a
        some (st, v)
    | .BinOp left op right =>
      match op, left with
      | Token.Assign _, Expr.Variable s => do
          let (st1, v) ← evalExpr M fuel right st
          let a ← st1.vars s
          some (storeCell st1 a v, v)
      | _, _ => do
          let (st1, lv) ← evalExpr M fuel left st
          let (st2, rv) ← evalExpr M fuel right st1
          match binOpChar op with
          | some c =>
            match get_function M (("binary").push c) with
            | some f => callFn (fun e' st' => evalExpr M fuel e' st') st2.vars f [lv, rv] st2
            | Option.none =>
              match op with
              | Token.Plus _ => some (st2, F64.add lv rv)
              | Token.Minus _ => some (st2, F64.sub lv rv)
              | Token.Star _ => some (st2, F64.mul lv rv)
              | Token.Slash _ => some (st2, F64.div lv rv)
              | Token.Less _ => some (st2, boolToF64 (F64.fcmpULT lv rv))
              | Token.Greater _ => some (st2, boolToF64 (F64.fcmpUGT lv rv))
              | _ => Option.none
          | Option.none => Option.none
    | .Call identifier args => do
        let f ← get_function M identifier
        let (st1, vals) ← evalArgsWith (fun e' st' => evalExpr M fuel e' st') args st
        callFn (fun e' st' => evalExpr M fuel e' st') st1.vars f vals st1
    | .If condition thenE els => do
        let (st1, cv) ← evalExpr M fuel condition st
        if F64.fcmpONE cv (F64.num 0 1) then evalExpr M fuel thenE st1
        else evalExpr M fuel els st1
    | .Unary op left => do
        let (st1, v) ← evalExpr M fuel left st
        let f ← get_function M (("unary").push op)
        callFn (fun e' st' => evalExpr M fuel e' st') st1.vars f [v] st1
    | .For ident start endE step body => do
        let (stA, addr) := allocCell st
        let (st1, sv) ← evalExpr M fuel start stA
        let st2 := storeCell st1 addr sv
        let old := st2.vars ident
        let st3 : State := {st2 with vars := insertVar st2.vars ident addr}
        let st4 ← iterateLoop
          (forStep (fun e' st' => evalExpr M fuel e' st') addr endE step body) fuel st3
        some ({st4 with vars :=
          (match old with
            | some o => insertVar st4.vars ident o
            | Option.none => removeVar st4.vars ident)}, F64.num 0 1)
    | .Var varnames body => do
        let (st1, olds) ← evalDeclsWith (fun e' st' => evalExpr M fuel e' st') varnames st
        let (st2, bv) ← evalExpr M fuel body st1
        some ({st2 with vars := restoreBindings olds st2.vars}, bv)
    | .None => Option.none

/-- Observable projection of an evaluation result: the output trace and value. -/
def evalOut (r : Option (State × F64)) : Option (List F64 × F64) :=
  r.map (fun p => (p.1.out, p.2))

/-! ## Parser (src/parser.rs)

`ParserContext` owns the live precedence table (`binop_precedence`,
a `HashMap<char, i8>`, modelled as `Char → Option Int`) and the list of parsed
functions.  The lexer contract is a token list consumed left to right;
`peek_token`/`next_token` return `Eof` past the end.

The mutually recursive expression parsers (`parse_expression`, `parse_unary`,
`parse_primary`, `parse_binop_rhs`, and the two inner loops of `parse_primary`)
are encoded as one fuel-indexed step function `parseStep` over a request type
`PK`, one request constructor per source function, so that the definition
kernel-reduces on concrete inputs.  Thin wrappers restore the source names. -/

abbrev PrecTable := Char → Option Int

def emptyPrec : PrecTable := fun _ => Option.none

/-- `HashMap::insert` on the precedence table. -/
def insertPrec (t : PrecTable) (c : Char) (p : Int) : PrecTable :=
  fun x => if x = c then some p else t x

/-- The pre-seeded table built by `ParserContext::new`. -/
def new_precedence : PrecTable :=
  insertPrec (insertPrec (insertPrec (insertPrec (insertPrec (insertPrec (insertPrec
    emptyPrec '=' 2) '<' 10) '>' 10) '+' 20) '-' 20) '*' 40) '/' 40

/-- The operator character carried by a token, as extracted by
`ParserContext::get_precedence` and matched by `parse_unary` — this list has
all fifteen operator-character constructors, `Assign` included. -/
def tokOpChar : Token → Option Char
  | .Less c => some c
  | .Greater c => some c
  | .Plus c => some c
  | .Minus c => some c
  | .Star c => some c
  | .Slash c => some c
  | .Assign c => some c
  | .Bang c => some c
  | .Pipe c => some c
  | .Ampersand c => some c
  | .Caret c => some c
  | .Percent c => some c
  | .Dollar c => some c
  | .At c => some c
  | .Tilde c => some c
  | _ => Option.none

/-- `ParserContext::get_precedence`: the table entry for the token's operator
character, `-1` for non-operator tokens and unknown characters. -/
def get_precedence (tbl : PrecTable) (tok : Token) : Int :=
  match tokOpChar tok with
  | some c => (tbl c).getD (-1)
  | Option.none => -1

/-- `LexerContext::peek_token`. -/
def peekTok (toks : List Token) : Token := toks.headD Token.Eof

/-- `LexerContext::next_token`. -/
def nextTok (toks : List Token) : Token × List Token := (toks.headD Token.Eof, toks.tail)

/-- Discriminant of a token (`std::mem::discriminant`). -/
def tokTag : Token → Nat
  | .Eof => 0
  | .Def => 1
  | .Extrn => 2
  | .Identifier _ => 3
  | .Number _ => 4
  | .LParen _ => 5
  | .RParen _ => 6
  | .Plus _ => 7
  | .Minus _ => 8
  | .Star _ => 9
  | .Slash _ => 10
  | .Comma _ => 11
  | .Less _ => 12
  | .Greater _ => 13
  | .If => 14
  | .Else => 15
  | .Var => 16
  | .Then => 17
  | .For => 18
  | .In => 19
  | .Assign _ => 20
  | .Bang _ => 21
  | .Pipe _ => 22
  | .Ampersand _ => 23
  | .Caret _ => 24
  | .Percent _ => 25
  | .Dollar _ => 26
  | .At _ => 27
  | .Tilde _ => 28
  | .Binary _ => 29
  | .Unary _ => 30

/-- `LexerContext::consume_assert_next_token`: consume one token and require
its discriminant to match the expected one. -/
def consume_assert_next_token (expected : Token) (toks : List Token) :
    Except String (Token × List Token) :=
  let (t, rest) := nextTok toks
  if tokTag t = tokTag expected then .ok (t, rest)
  else .error ("Expected a different token")

/-- `LexerContext::consume_opt_next_token`: consume the next token only when
its discriminant matches. -/
def consume_opt_next_token (expected : Token) (toks : List Token) :
    Option Token × List Token :=
  if tokTag (peekTok toks) = tokTag expected then
    let (t, rest) := nextTok toks
    (some t, rest)
  else (Option.none, toks)

/-- Parse requests: one constructor per mutually recursive parser function
(`parse_expression`, `parse_unary`, `parse_primary`, `parse_binop_rhs`, the
var-declaration loop inside `parse_primary`'s `Var` branch, and the
call-argument comma loop inside its `Identifier` branch). -/
inductive PK where
  | expr
  | unary
  | primary
  | binopRhs (exprPrec : Int) (lhs : Expr)
  | varPairs (acc : List (String × Option Expr))
  | callArgs (acc : List Expr)

/-- Parse results for the respective requests. -/
inductive PV where
  | e (x : Expr)
  | pairs (ps : List (String × Option Expr))
  | args (xs : List Expr)

/-- The mutually recursive expression parsers of `ParserContext`, as a single
fuel-indexed step function.  Each `PK` case mirrors its source function
line by line; `internal` errors mark result-variant mismatches that cannot
occur.  The table is read-only here, exactly as in the source (`&self`). -/
def parseStep (tbl : PrecTable) : Nat → PK → List Token → Except String (PV × List Token)
  | 0, _, _ => .error ("out of fuel")
  | fuel+1, k, toks =>
    match k with
    | .expr =>
      match parseStep tbl fuel .unary toks with
      | .error m => .error m
      | .ok (.e u, ts) => parseStep tbl fuel (.binopRhs 0 u) ts
      | .ok _ => .error ("internal")
    | .unary =>
      match tokOpChar (peekTok toks) with
      | some c =>
        let (_, ts) := nextTok toks
        match parseStep tbl fuel .unary ts with
        | .error m => .error m
        | .ok (.e u, ts1) => .ok (.e (Expr.Unary c u), ts1)
        | .ok _ => .error ("internal")
      | Option.none => parseStep tbl fuel .primary toks
    | .primary =>
      match peekTok toks with
      | Token.LParen _ =>
        match consume_assert_next_token (Token.LParen '(') toks with
        | .error m => .error m
        | .ok (_, ts) =>
          match parseStep tbl fuel .expr ts with
          | .error m => .error m
          | .ok (.e x, ts1) =>
            match consume_assert_next_token (Token.RParen ')') ts1 with
            | .error m => .error m
            | .ok (_, ts2) => .ok (.e x, ts2)
          | .ok _ => .error ("internal")
      | Token.Var =>
        match consume_assert_next_token Token.Var toks with
        | .error m => .error m
        | .ok (_, ts) =>
          match parseStep tbl fuel (.varPairs []) ts with
          | .error m => .error m
          | .ok (.pairs ps, ts1) =>
            match consume_assert_next_token Token.In ts1 with
            | .error m => .error m
            | .ok (_, ts2) =>
              match parseStep tbl fuel .expr ts2 with
              | .error m => .error m
              | .ok (.e b, ts3) => .ok (.e (Expr.Var ps b), ts3)
              | .ok _ => .error ("internal")
          | .ok _ => .error ("internal")
      | Token.Number n =>
        let (_, ts) := nextTok toks
        .ok (.e (Expr.Number n), ts)
      | Token.Identifier name =>
        let (_, ts) := nextTok toks
        match peekTok ts with
        | Token.LParen _ =>
          match consume_assert_next_token (Token.LParen '(') ts with
          | .error m => .error m
          | .ok (_, ts1) =>
            let argsRes : Except String (List Expr × List Token) :=
              match peekTok ts1 with
              | Token.RParen _ => .ok ([], ts1)
              | _ =>
                match parseStep tbl fuel .expr ts1 with
                | .error m => .error m
                | .ok (.e first, ts2) =>
                  match parseStep tbl fuel (.callArgs [first]) ts2 with
                  | .error m => .error m
                  | .ok (.args xs, ts3) => .ok (xs, ts3)
                  | .ok _ => .error ("internal")
                | .ok _ => .error ("internal")
            match argsRes with
            | .error m => .error m
            | .ok (args, ts4) =>
              match consume_assert_next_token (Token.RParen ')') ts4 with
              | .error m => .error m
              | .ok (_, ts5) => .ok (.e (Expr.Call name args), ts5)
        | _ => .ok (.e (Expr.Variable name), ts)
      | Token.If =>
        match consume_assert_next_token Token.If toks with
        | .error m => .error m
        | .ok (_, ts) =>
          match parseStep tbl fuel .expr ts with
          | .error m => .error m
          | .ok (.e c, ts1) =>
            match consume_assert_next_token Token.Then ts1 with
            | .error m => .error m
            | .ok (_, ts2) =>
              match parseStep tbl fuel .expr ts2 with
              | .error m => .error m
              | .ok (.e t, ts3) =>
                match consume_assert_next_token Token.Else ts3 with
                | .error m => .error m
                | .ok (_, ts4) =>
                  match parseStep tbl fuel .expr ts4 with
                  | .error m => .error m
                  | .ok (.e el, ts5) => .ok (.e (Expr.If c t el), ts5)
                  | .ok _ => .error ("internal")
              | .ok _ => .error ("internal")
          | .ok _ => .error ("internal")
      | Token.For =>
        match consume_assert_next_token Token.For toks with
        | .error m => .error m
        | .ok (_, ts) =>
          match parseStep tbl fuel .primary ts with
          | .error m => .error m
          | .ok (.e (Expr.Variable s), ts1) =>
            match consume_assert_next_token (Token.Assign '=') ts1 with
            | .error m => .error m
            | .ok (_, ts2) =>
              match parseStep tbl fuel .expr ts2 with
              | .error m => .error m
              | .ok (.e start, ts3) =>
                match consume_assert_next_token (Token.Comma ',') ts3 with
                | .error m => .error m
                | .ok (_, ts4) =>
                  match parseStep tbl fuel .expr ts4 with
                  | .error m => .error m
                  | .ok (.e endv, ts5) =>
                    let stepRes : Except String (Option Expr × List Token) :=
                      match peekTok ts5 with
                      | Token.Comma _ =>
                        match consume_assert_next_token (Token.Comma ',') ts5 with
                        | .error m => .error m
                        | .ok (_, ts6) =>
                          match parseStep tbl fuel .expr ts6 with
                          | .error m => .error m
                          | .ok (.e sp, ts7) => .ok (some sp, ts7)
                          | .ok _ => .error ("internal")
                      | _ => .ok (Option.none, ts5)
                    match stepRes with
                    | .error m => .error m
                    | .ok (step, ts8) =>
                      match consume_assert_next_token Token.In ts8 with
                      | .error m => .error m
                      | .ok (_, ts9) =>
                        match parseStep tbl fuel .expr ts9 with
                        | .error m => .error m
                        | .ok (.e body, ts10) =>
                          .ok (.e (Expr.For s start endv step body), ts10)
                        | .ok _ => .error ("internal")
                  | .ok _ => .error ("internal")
              | .ok _ => .error ("internal")
          | .ok (.e _, _) => .error ("Expected Identifier in for-loop")
          | .ok _ => .error ("internal")
      | _ => .error ("Failed to parse primary expression")
    | .binopRhs exprPrec lhs =>
      let tokPrec := get_precedence tbl (peekTok toks)
      if tokPrec < exprPrec then .ok (.e lhs, toks)
      else
        let (op, ts) := nextTok toks
        match parseStep tbl fuel .unary ts with
        | .error m => .error m
        | .ok (.e rhs0, ts1) =>
          let nextPrec := get_precedence tbl (peekTok ts1)
          let rhsRes : Except String (PV × List Token) :=
            if tokPrec < nextPrec then parseStep tbl fuel (.binopRhs (tokPrec + 1) rhs0) ts1
            else .ok (.e rhs0, ts1)
          match rhsRes with
          | .error m => .error m
          | .ok (.e rhs, ts2) =>
            parseStep tbl fuel (.binopRhs exprPrec (Expr.BinOp lhs op rhs)) ts2
          | .ok _ => .error ("internal")
        | .ok _ => .error ("internal")
    | .varPairs acc =>
      match peekTok toks with
      | Token.Identifier name =>
        let (_, ts) := nextTok toks
        let initRes : Except String (Option Expr × List Token) :=
          match peekTok ts with
          | Token.Assign _ =>
            let (_, ts1) := nextTok ts
            match parseStep tbl fuel .expr ts1 with
            | .error m => .error m
            | .ok (.e ie, ts2) => .ok (some ie, ts2)
            | .ok _ => .error ("internal")
          | _ => .ok (Option.none, ts)
        match initRes with
        | .error m => .error m
        | .ok (ini, ts3) =>
          let acc1 := acc ++ [(name, ini)]
          match peekTok ts3 with
          | Token.Comma _ =>
            let (_, ts4) := nextTok ts3
            parseStep tbl fuel (.varPairs acc1) ts4
          | _ => .ok (.pairs acc1, ts3)
      | _ => .ok (.pairs acc, toks)
    | .callArgs acc =>
      match peekTok toks with
      | Token.Comma _ =>
        match consume_assert_next_token (Token.Comma ',') toks with
        | .error m => .error m
        | .ok (_, ts) =>
          match peekTok ts with
          | Token.RParen _ => .ok (.args acc, ts)
          | _ =>
            match parseStep tbl fuel .expr ts with
            | .error m => .error m
            | .ok (.e x, ts1) => parseStep tbl fuel (.callArgs (acc ++ [x])) ts1
            | .ok _ => .error ("internal")
      | _ => .ok (.args acc, toks)

/-- `ParserContext::parse_expression`. -/
def parse_expression (tbl : PrecTable) (fuel : Nat) (toks : List Token) :
    Except String (Expr × List Token) :=
  match parseStep tbl fuel .expr toks with
  | .ok (.e x, ts) => .ok (x, ts)
  | .ok _ => .error ("internal")
  | .error m => .error m

/-- `ParserContext::parse_binop_rhs`, exposed for the precedence claims. -/
def parse_binop_rhs (tbl : PrecTable) (fuel : Nat) (exprPrec : Int) (lhs : Expr)
    (toks : List Token) : Except String (Expr × List Token) :=
  match parseStep tbl fuel (.binopRhs exprPrec lhs) toks with
  | .ok (.e x, ts) => .ok (x, ts)
  | .ok _ => .error ("internal")
  | .error m => .error m

/-- The prototype-argument loop of `parse_proto`. -/
def parse_proto_args : List Token → Except String (List String × List Token)
  | [] => .error ("Unexpected token found while parsing args")
  | t :: rest =>
    match t with
    | Token.Identifier s =>
      match parse_proto_args rest with
      | .error m => .error m
      | .ok (args, ts) => .ok (s :: args, ts)
    | Token.RParen _ => .ok ([], rest)
    | _ => .error ("Unexpected token found while parsing args")

/-- Rust numeric cast `f64 as i8`: truncation toward zero, saturating at the
i8 range, NaN to 0. -/
def F64.as_i8 : F64 → Int
  | .nan => 0
  | .num n d =>
    let t : Int := if n < 0 then -(Int.ofNat (n.natAbs / d)) else Int.ofNat (n.natAbs / d)
    max (-128) (min 127 t)

/-- `ParserContext::parse_proto`: name (plain, `binary<char>[number]`, or
`unary<char>`), argument list, operator-arity validation, and — for a binary
operator — the immediate insertion of `(char → precedence as i8, default 30)`
into the live table.  The `assert_eq!` arity panics are modelled as errors. -/
def parse_proto (tbl : PrecTable) (toks : List Token) :
    Except String (Function × PrecTable × List Token) :=
  let (t0, ts0) := nextTok toks
  match t0 with
  | Token.Binary c =>
    let (precedence, ts1) :=
      match peekTok ts0 with
      | Token.Number nv => (some nv, (nextTok ts0).2)
      | _ => ((Option.none : Option F64), ts0)
    (match consume_assert_next_token (Token.LParen '(') ts1 with
    | .error m => .error m
    | .ok (_, ts2) =>
      match parse_proto_args ts2 with
      | .error m => .error m
      | .ok (args, ts3) =>
        if args.length = 2 then
          let prec := (precedence.getD (F64.num 30 1)).as_i8
          .ok (⟨("binary").push c, args, Expr.None, true, precedence⟩,
               insertPrec tbl c prec, ts3)
        else .error ("Binary operators require exactly 2 arguments"))
  | Token.Unary c =>
    let (precedence, ts1) :=
      match peekTok ts0 with
      | Token.Number nv => (some nv, (nextTok ts0).2)
      | _ => ((Option.none : Option F64), ts0)
    (match consume_assert_next_token (Token.LParen '(') ts1 with
    | .error m => .error m
    | .ok (_, ts2) =>
      match parse_proto_args ts2 with
      | .error m => .error m
      | .ok (args, ts3) =>
        if args.length = 1 then
          .ok (⟨("unary").push c, args, Expr.None, true, precedence⟩, tbl, ts3)
        else .error ("Unary operators require exactly 1 argument"))
  | Token.Identifier s =>
    (match consume_assert_next_token (Token.LParen '(') ts0 with
    | .error m => .error m
    | .ok (_, ts2) =>
      match parse_proto_args ts2 with
      | .error m => .error m
      | .ok (args, ts3) =>
        .ok (⟨s, args, Expr.None, false, Option.none⟩, tbl, ts3))
  | _ => .error ("Failed to parse identifier or binary/unary")

/-- `ParserContext::parse_function_definition`: prototype (which may extend the
table), then the body parsed with the extended table. -/
def parse_function_definition (tbl : PrecTable) (fuel : Nat) (toks : List Token) :
    Except String (Function × PrecTable × List Token) :=
  let (_, ts) := consume_opt_next_token Token.Def toks
  match parse_proto tbl ts with
  | .error m => .error m
  | .ok (proto, tbl1, ts1) =>
    match parse_expression tbl1 fuel ts1 with
    | .error m => .error m
    | .ok (body, ts2) => .ok ({proto with body := body}, tbl1, ts2)

/-- `ParserContext::parse_extern` (renamed: `Extrn`): a bare prototype. -/
def parse_extrn (tbl : PrecTable) (toks : List Token) :
    Except String (Function × PrecTable × List Token) :=
  let (_, ts) := consume_opt_next_token Token.Extrn toks
  parse_proto tbl ts

/-- `ParserContext::parse_top_level_expression`: a bare expression wrapped in
the synthetic zero-argument function `_top_level_expr`. -/
def parse_top_level_expression (tbl : PrecTable) (fuel : Nat) (toks : List Token) :
    Except String (Function × List Token) :=
  match parse_expression tbl fuel toks with
  | .error m => .error m
  | .ok (e, ts) => .ok (⟨"_top_level_expr", [], e, false, Option.none⟩, ts)

/-- `ParserContext::parse`: the top-level loop over definitions, extern
declarations and top-level expressions, threading the mutable table. -/
def parse (fuel : Nat) (tbl : PrecTable) (fns : List Function) (toks : List Token) :
    Except String (List Function × PrecTable) :=
  match fuel with
  | 0 => .error ("out of fuel")
  | fuel+1 =>
    match peekTok toks with
    | Token.Def =>
      match parse_function_definition tbl fuel toks with
      | .error m => .error m
      | .ok (f, tbl1, ts) => parse fuel tbl1 (fns ++ [f]) ts
    | Token.Extrn =>
      match parse_extrn tbl toks with
      | .error m => .error m
      | .ok (f, tbl1, ts) => parse fuel tbl1 (fns ++ [f]) ts
    | Token.Eof => .ok (fns, tbl)
    | _ =>
      match parse_top_level_expression tbl fuel toks with
      | .error m => .error m
      | .ok (f, ts) => parse fuel tbl (fns ++ [f]) ts

/-- Observable projection of a whole-unit parse: the parsed function list. -/
def parsedFns (r : Except String (List Function × PrecTable)) : Option (List Function) :=
  match r with
  | .ok p => some p.1
  | .error _ => Option.none

/-! ## Unit-level lowering driver (`CodegenContext::codegen` + `finalize`) -/

/-- The `rposition` over the parsed functions locating the last
`_top_level_expr` (src/codegen.rs, `last_top_level`). -/
def lastTopIdx : List Function → Option Nat
  | [] => Option.none
  | f :: rest =>
    match lastTopIdx rest with
    | some j => some (j + 1)
    | Option.none => if f.name == "_top_level_expr" then some 0 else Option.none

/-- The enumerate loop of `CodegenContext::codegen`, in runtime terms: a
top-level expression is lowered into main (hence evaluated by main) only when
its index equals `last_top_level`; other functions are lowered outside main
and externs registered, with no effect on main's execution.  `finalize`
returns `last_result`, or 0.0 when it was never set. -/
def runUnitGo (M : List Function) (fuel : Nat) (lastIdx : Option Nat) :
    Nat → List Function → State → Option F64 → Option (State × F64)
  | _, [], st, lastRes => some (st, lastRes.getD (F64.num 0 1))
  | i, f :: rest, st, lastRes =>
    if f.name == "_top_level_expr" then
      if some i = lastIdx then
        match evalExpr M fuel f.body st with
        | some (st1, v) => runUnitGo M fuel lastIdx (i + 1) rest st1 (some v)
        | Option.none => Option.none
      else runUnitGo M fuel lastIdx (i + 1) rest st lastRes
    else runUnitGo M fuel lastIdx (i + 1) rest st lastRes

/-- Runtime result of the lowered unit: what executing `main` yields after
`CodegenContext::codegen` and `finalize`, for a unit whose lowering succeeds.
Name resolution at run time uses the full module. -/
def runUnit (fs : List Function) (fuel : Nat) : Option (State × F64) :=
  runUnitGo fs fuel (lastTopIdx fs) 0 fs initState Option.none

/-- Modelled from the spec: the entry described by the specification
"sequentially evaluates every top-level expression and yields the value of
the last (or zero if none)" — the refinement comparison target for claim C1.
Identical to `runUnitGo` except that EVERY `_top_level_expr` is evaluated. -/
def runUnitSpecGo (M : List Function) (fuel : Nat) :
    List Function → State → Option F64 → Option (State × F64)
  | [], st, lastRes => some (st, lastRes.getD (F64.num 0 1))
  | f :: rest, st, lastRes =>
    if f.name == "_top_level_expr" then
      match evalExpr M fuel f.body st with
      | some (st1, v) => runUnitSpecGo M fuel rest st1 (some v)
      | Option.none => Option.none
    else runUnitSpecGo M fuel rest st lastRes

/-- Modelled from the spec: whole-unit runtime result with the spec's
"every top-level expression" entry. -/
def runUnitSpec (fs : List Function) (fuel : Nat) : Option (State × F64) :=
  runUnitSpecGo fs fuel fs initState Option.none

/-- The body of the last `_top_level_expr` of the unit, if any. -/
def lastTopBody (fs : List Function) : Option Expr :=
  ((fs.filter (fun f => f.name == "_top_level_expr")).getLast?).map Function.body

/-! ## Concrete programs referenced by the claims -/

/-- The extern declaration `extern printd(x)` as parsed. -/
def printdDecl : Function := ⟨"printd", ["x"], Expr.None, false, Option.none⟩

/-- The AST of `for i = 1, i < 5, 1 in printd(i)`. -/
def c3Loop : Expr :=
  Expr.For "i" (Expr.Number (F64.num 1 1))
    (Expr.BinOp (Expr.Variable "i") (Token.Less '<') (Expr.Number (F64.num 5 1)))
    (some (Expr.Number (F64.num 1 1)))
    (Expr.Call "printd" [Expr.Variable "i"])

/-- The AST of `if (0.0/0.0) then 1 else 2`. -/
def c2NanIf : Expr :=
  Expr.If (Expr.BinOp (Expr.Number (F64.num 0 1)) (Token.Slash '/') (Expr.Number (F64.num 0 1)))
    (Expr.Number (F64.num 1 1)) (Expr.Number (F64.num 2 1))

/-- The AST of `if 0 then 1 else 2`. -/
def c2ZeroIf : Expr :=
  Expr.If (Expr.Number (F64.num 0 1)) (Expr.Number (F64.num 1 1)) (Expr.Number (F64.num 2 1))

/-! ## Claim C2 — truth test of conditionals -/

/-- C2 counterexample: the lowered truth test uses `FCMP_ONE`
(ORDERED-not-equal, src/codegen.rs line 342), so the NaN condition
`if (0.0/0.0) then 1 else 2` evaluates to 2.0 — the ELSE branch — while the
claim says it takes the then-branch (value 1.0). -/
theorem C2_counterexample :
    evalOut (evalExpr [] 10 c2NanIf initState) = some ([], F64.num 2 1) ∧
      F64.num 2 1 ≠ F64.num 1 1 := by
  exact ⟨rfl, by decide⟩

/-- C2 amended: `if 0 then 1 else 2` evaluates to 2.0, and the truth test is
the ORDERED-not-equal comparison against 0.0: whenever the condition
evaluates to NaN the conditional takes the ELSE branch. -/
theorem C2_truth_test_ordered :
    evalOut (evalExpr [] 10 c2ZeroIf initState) = some ([], F64.num 2 1) ∧
      ∀ (M : List Function) (fuel : Nat) (cond thenE els : Expr) (st st1 : State),
        evalExpr M fuel cond st = some (st1, F64.nan) →
        evalExpr M (fuel + 1) (Expr.If cond thenE els) st = evalExpr M fuel els st1 := by
  refine ⟨rfl, ?_⟩
  intro M fuel cond thenE els st st1 h
  simp [evalExpr, h, F64.fcmpONE]

/-- C2 witness: the general part applied to the concrete NaN condition. -/
theorem C2_witness :
    evalExpr [] 9 (Expr.BinOp (Expr.Number (F64.num 0 1)) (Token.Slash '/')
        (Expr.Number (F64.num 0 1))) initState = some (initState, F64.nan) ∧
      evalExpr [] 10 c2NanIf initState = evalExpr [] 9 (Expr.Number (F64.num 2 1)) initState := by
  exact ⟨rfl, (C2_truth_test_ordered).2 [] 9 _ _ _ initState initState rfl⟩

/-! ## Claim C3 — iteration count of `for i = 1, i < 5, 1 in printd(i)` -/

/-- C3 counterexample: the end condition is lowered BEFORE the induction
variable is incremented (src/codegen.rs lines 234-247), so the loop body runs
with i = 1, 2, 3, 4 AND 5 — five times, not the four the claim states. -/
theorem C3_counterexample :
    evalOut (evalExpr [printdDecl] 50 c3Loop initState) =
      some ([F64.num 1 1, F64.num 2 1, F64.num 3 1, F64.num 4 1, F64.num 5 1], F64.num 0 1) ∧
      ([F64.num 1 1, F64.num 2 1, F64.num 3 1, F64.num 4 1, F64.num 5 1] : List F64) ≠
        [F64.num 1 1, F64.num 2 1, F64.num 3 1, F64.num 4 1] := by
  exact ⟨rfl, by decide⟩

/-- C3 amended: the loop executes its body exactly 5 times, with the induction
variable taking the values 1, 2, 3, 4, 5 in order (the end condition is
evaluated before the increment, so the body also runs for i = 5); the loop
expression itself yields 0.0. -/
theorem C3_loop_runs_five_times :
    (evalExpr [printdDecl] 50 c3Loop initState).map (fun p => (p.1.out, p.1.out.length, p.2)) =
      some ([F64.num 1 1, F64.num 2 1, F64.num 3 1, F64.num 4 1, F64.num 5 1], 5,
        F64.num 0 1) := by
  exact rfl

/-! ## Claim C5 — operator without a precedence entry in infix position -/

/-- C5 counterexample: with `!` absent from the table, the token sequence of
`a ! b` parses WITHOUT error: `parse_binop_rhs` sees precedence −1 and ends
the first top-level expression before `!`, and the parser then consumes
`! b` as a second top-level expression with `!` in prefix-unary position. -/
theorem C5_counterexample :
    parsedFns (parse 30 new_precedence []
        [Token.Identifier "a", Token.Bang '!', Token.Identifier "b", Token.Eof]) =
      some [⟨"_top_level_expr", [], Expr.Variable "a", false, Option.none⟩,
            ⟨"_top_level_expr", [], Expr.Unary '!' (Expr.Variable "b"), false, Option.none⟩] := by
  exact rfl

/-- C5 amended: an operator token whose character has no precedence-table
entry binds with precedence −1, so in infix position it never continues the
binary expression: `parse_binop_rhs` returns the accumulated left-hand side
with the operator token unconsumed, raising no parse error itself.  (A parse
error may still arise from the surrounding context, but need not: at top
level the stray operator is re-parsed in prefix-unary position.) -/
theorem C5_unknown_op_ends_expression
    (tbl : PrecTable) (fuel : Nat) (exprPrec : Int) (lhs : Expr) (t : Token)
    (rest : List Token) (h : get_precedence tbl t < exprPrec) :
    parse_binop_rhs tbl (fuel + 1) exprPrec lhs (t :: rest) = .ok (lhs, t :: rest) := by
  simp [parse_binop_rhs, parseStep, peekTok, h]

/-- C5 witness: `!` is unknown in the seeded table, and a binary-expression
parse at minimum precedence 0 ends in front of it. -/
theorem C5_witness :
    get_precedence new_precedence (Token.Bang '!') < 0 ∧
      parse_binop_rhs new_precedence 10 0 (Expr.Variable "a")
        [Token.Bang '!', Token.Identifier "b", Token.Eof] =
      .ok (Expr.Variable "a", [Token.Bang '!', Token.Identifier "b", Token.Eof]) := by
  exact ⟨by decide, C5_unknown_op_ends_expression new_precedence 9 0 _ _ _ (by decide)⟩

/-! ## Claim C6 — assignment left-hand sides -/

/-- C6 counterexample: the grammar DOES accept a binary `=` node whose left
operand is not a bare variable: the token sequence of `1 = 2` parses
successfully into exactly such a node (`=` is an ordinary table operator of
precedence 2 to `parse_binop_rhs`; no left-operand shape check exists). -/
theorem C6_counterexample :
    parsedFns (parse 30 new_precedence []
        [Token.Number (F64.num 1 1), Token.Assign '=', Token.Number (F64.num 2 1), Token.Eof]) =
      some [⟨"_top_level_expr", [],
             Expr.BinOp (Expr.Number (F64.num 1 1)) (Token.Assign '=')
               (Expr.Number (F64.num 2 1)),
             false, Option.none⟩] := by
  exact rfl

/-- C6 amended: a binary `=` node with a non-variable left operand IS
expressible by the grammar, but lowering rejects every such node: the
assignment special case does not apply, and the generic binary path has no
operator character for `Assign` ("Unknown token type"), so lowering the node
always fails. -/
theorem C6_nonvar_assign_rejected_at_lowering
    (M : List Function) (fuel : Nat) (c : Char) (l r : Expr) (st : State)
    (h : ∀ s, l ≠ Expr.Variable s) :
    evalExpr M (fuel + 1) (Expr.BinOp l (Token.Assign c) r) st = Option.none := by
  have step : ∀ st' : State,
      (match binOpChar (Token.Assign c) with
        | some _ => (Option.none : Option (State × F64))
        | Option.none => Option.none) = Option.none := by
    intro _; rfl
  cases l with
  | Variable s => exact absurd rfl (h s)
  | Number v =>
      simp only [evalExpr]
      rcases hl : evalExpr M fuel (Expr.Number v) st with _ | ⟨st1, lv⟩ <;> simp [hl] <;>
        rcases hr : evalExpr M fuel r st1 with _ | ⟨st2, rv⟩ <;> simp [hr, binOpChar]
  | BinOp a o b =>
      simp only [evalExpr]
      rcases hl : evalExpr M fuel (Expr.BinOp a o b) st with _ | ⟨st1, lv⟩ <;> simp [hl] <;>
        rcases hr : evalExpr M fuel r st1 with _ | ⟨st2, rv⟩ <;> simp [hr, binOpChar]
  | Call i a =>
      simp only [evalExpr]
      rcases hl : evalExpr M fuel (Expr.Call i a) st with _ | ⟨st1, lv⟩ <;> simp [hl] <;>
        rcases hr : evalExpr M fuel r st1 with _ | ⟨st2, rv⟩ <;> simp [hr, binOpChar]
  | If a b d =>
      simp only [evalExpr]
      rcases hl : evalExpr M fuel (Expr.If a b d) st with _ | ⟨st1, lv⟩ <;> simp [hl] <;>
        rcases hr : evalExpr M fuel r st1 with _ | ⟨st2, rv⟩ <;> simp [hr, binOpChar]
  | For i a b sp bd =>
      simp only [evalExpr]
      rcases hl : evalExpr M fuel (Expr.For i a b sp bd) st with _ | ⟨st1, lv⟩ <;> simp [hl] <;>
        rcases hr : evalExpr M fuel r st1 with _ | ⟨st2, rv⟩ <;> simp [hr, binOpChar]
  | Unary o a =>
      simp only [evalExpr]
      rcases hl : evalExpr M fuel (Expr.Unary o a) st with _ | ⟨st1, lv⟩ <;> simp [hl] <;>
        rcases hr : evalExpr M fuel r st1 with _ | ⟨st2, rv⟩ <;> simp [hr, binOpChar]
  | Var vs bd =>
      simp only [evalExpr]
      rcases hl : evalExpr M fuel (Expr.Var vs bd) st with _ | ⟨st1, lv⟩ <;> simp [hl] <;>
        rcases hr : evalExpr M fuel r st1 with _ | ⟨st2, rv⟩ <;> simp [hr, binOpChar]
  | None =>
      simp only [evalExpr]
      rcases hl : evalExpr M fuel Expr.None st with _ | ⟨st1, lv⟩ <;> simp [hl] <;>
        rcases hr : evalExpr M fuel r st1 with _ | ⟨st2, rv⟩ <;> simp [hr, binOpChar]

/-- C6 witness: lowering `1 = 2` fails. -/
theorem C6_witness :
    evalExpr [] 10 (Expr.BinOp (Expr.Number (F64.num 1 1)) (Token.Assign '=')
      (Expr.Number (F64.num 2 1))) initState = Option.none := by
  exact C6_nonvar_assign_rejected_at_lowering [] 9 '=' _ _ initState (fun s => by simp)

/-! ## Claim C7 — assignment to a bound variable -/

/-- C7: for `x = rhs` with `x` a bare variable bound to a cell, lowering never
evaluates the left operand: the right-hand side is evaluated from the incoming
state directly, its value is stored into the existing cell (the one the
variable maps to after the right-hand side's evaluation, mirroring the source
order), and that stored value is the expression's result. -/
theorem C7_assignment_semantics
    (M : List Function) (fuel : Nat) (c : Char) (s : String) (r : Expr)
    (st st1 : State) (v : F64) (a : Nat)
    (h1 : evalExpr M fuel r st = some (st1, v)) (h2 : st1.vars s = some a) :
    evalExpr M (fuel + 1) (Expr.BinOp (Expr.Variable s) (Token.Assign c) r) st =
      some (storeCell st1 a v, v) := by
  simp [evalExpr, h1, h2]

/-- C7 witness: `x = 7` with `x` bound to cell 0 holding 1.0 stores 7.0 into
cell 0 and yields 7.0. -/
theorem C7_witness :
    evalExpr [] 10 (Expr.BinOp (Expr.Variable "x") (Token.Assign '=')
        (Expr.Number (F64.num 7 1)))
      ⟨[F64.num 1 1], insertVar emptyVars "x" 0, []⟩ =
      some (⟨[F64.num 7 1], insertVar emptyVars "x" 0, []⟩, F64.num 7 1) := by
  exact C7_assignment_semantics [] 9 '=' "x" (Expr.Number (F64.num 7 1))
    ⟨[F64.num 1 1], insertVar emptyVars "x" 0, []⟩
    ⟨[F64.num 1 1], insertVar emptyVars "x" 0, []⟩ (F64.num 7 1) 0 rfl rfl

/-! ## Claim C9 — precedence-climbing parse shapes -/

/-- C9: with the pre-seeded table, `a + b * c` parses as `a + (b * c)` and
`a - b - c` parses as `(a - b) - c`. -/
theorem C9_precedence_parsing :
    parse_expression new_precedence 30
        [Token.Identifier "a", Token.Plus '+', Token.Identifier "b", Token.Star '*',
         Token.Identifier "c", Token.Eof] =
      .ok (Expr.BinOp (Expr.Variable "a") (Token.Plus '+')
            (Expr.BinOp (Expr.Variable "b") (Token.Star '*') (Expr.Variable "c")),
           [Token.Eof]) ∧
    parse_expression new_precedence 30
        [Token.Identifier "a", Token.Minus '-', Token.Identifier "b", Token.Minus '-',
         Token.Identifier "c", Token.Eof] =
      .ok (Expr.BinOp (Expr.BinOp (Expr.Variable "a") (Token.Minus '-') (Expr.Variable "b"))
            (Token.Minus '-') (Expr.Variable "c"),
           [Token.Eof]) := by
  exact ⟨rfl, rfl⟩

/-! ## Claim C4 — scope entry/exit and binding restoration -/

/-- Unfolding of the `Expr::For` arm of the evaluator, by definition. -/
theorem evalExpr_For_unfold (M : List Function) (fuel : Nat) (ident : String)
    (s e : Expr) (stp : Option Expr) (body : Expr) (st : State) :
    evalExpr M (fuel + 1) (Expr.For ident s e stp body) st =
      (evalExpr M fuel s (allocCell st).1).bind (fun p =>
        (iterateLoop (forStep (fun e' st' => evalExpr M fuel e' st') (allocCell st).2 e stp body)
            fuel
            (State.mk (storeCell p.1 (allocCell st).2 p.2).store
              (insertVar (storeCell p.1 (allocCell st).2 p.2).vars ident (allocCell st).2)
              (storeCell p.1 (allocCell st).2 p.2).out)).bind
          (fun st4 => some (State.mk st4.store
            (match (storeCell p.1 (allocCell st).2 p.2).vars ident with
              | some o => insertVar st4.vars ident o
              | Option.none => removeVar st4.vars ident) st4.out, F64.num 0 1))) := rfl

/-- Unfolding of the `Expr::Var` arm of the evaluator, by definition. -/
theorem evalExpr_Var_unfold (M : List Function) (fuel : Nat)
    (varnames : List (String × Option Expr)) (body : Expr) (st : State) :
    evalExpr M (fuel + 1) (Expr.Var varnames body) st =
      (evalDeclsWith (fun e' st' => evalExpr M fuel e' st') varnames st).bind (fun pr =>
        (evalExpr M fuel body pr.1).bind (fun q =>
          some (State.mk q.1.store
            (restoreBindings pr.2 q.1.vars) q.1.out, q.2))) := rfl

/-- Unfolding of the `Expr::Call` arm of the evaluator, by definition. -/
theorem evalExpr_Call_unfold (M : List Function) (fuel : Nat) (idf : String)
    (args : List Expr) (st : State) :
    evalExpr M (fuel + 1) (Expr.Call idf args) st =
      (get_function M idf).bind (fun f =>
        (evalArgsWith (fun e' st' => evalExpr M fuel e' st') args st).bind (fun q =>
          callFn (fun e' st' => evalExpr M fuel e' st') q.1.vars f q.2 q.1)) := rfl

/-- Unfolding of one step of the var-block declaration loop, by definition. -/
theorem evalDeclsWith_cons (ev : Expr → State → Option (State × F64)) (name : String)
    (initE : Option Expr) (rest : List (String × Option Expr)) (st : State) :
    evalDeclsWith ev ((name, initE) :: rest) st =
      (initVal ev initE st).bind (fun p =>
        (evalDeclsWith ev rest
            (State.mk (p.1.store ++ [p.2])
              (insertVar p.1.vars name p.1.store.length) p.1.out)).bind (fun q =>
          some (q.1,
            (match p.1.vars name with
              | some o => [(name, o)]
              | Option.none => []) ++ q.2))) := rfl

/-- The last `old_bindings` entry saved for a name (the restore loop's
re-insertions fold left, so the last push for a name wins). -/
def lastSaved : List (String × Nat) → String → Option Nat
  | [], _ => Option.none
  | p :: rest, x =>
    match lastSaved rest x with
    | some o => some o
    | Option.none => if x = p.1 then some p.2 else Option.none

/-- The restore loop re-inserts saved bindings in push order: a name ends at
its last saved entry, and a name with no saved entry is left untouched. -/
theorem restoreBindings_lookup :
    ∀ (olds : List (String × Nat)) (m : String → Option Nat) (x : String),
      restoreBindings olds m x =
        match lastSaved olds x with
        | some o => some o
        | Option.none => m x := by
  intro olds
  induction olds with
  | nil => intro m x; rfl
  | cons p rest ih =>
    intro m x
    have hfold : restoreBindings (p :: rest) m = restoreBindings rest (insertVar m p.1 p.2) :=
      rfl
    rw [hfold, ih]
    by_cases hx : x = p.1
    · subst hx
      cases hr : lastSaved rest p.1 with
      | some o => simp [lastSaved, hr]
      | none => simp [lastSaved, hr, insertVar]
    · cases hr : lastSaved rest x with
      | some o => simp [lastSaved, hr]
      | none => simp [lastSaved, hr, insertVar, hx]

theorem lastSaved_append (l1 l2 : List (String × Nat)) (x : String) :
    lastSaved (l1 ++ l2) x =
      match lastSaved l2 x with
      | some o => some o
      | Option.none => lastSaved l1 x := by
  induction l1 with
  | nil => cases h2 : lastSaved l2 x <;> simp [lastSaved, h2]
  | cons p l1' ih =>
    rw [List.cons_append]
    cases h2 : lastSaved l2 x with
    | some o => simp only [lastSaved, ih, h2]
    | none => simp only [lastSaved, ih, h2]

theorem lastSaved_none_of (olds : List (String × Nat)) (x : String)
    (h : ∀ p ∈ olds, p.1 ≠ x) : lastSaved olds x = Option.none := by
  induction olds with
  | nil => rfl
  | cons p rest ih =>
    have hp : p.1 ≠ x := h p (by simp)
    have hrest : lastSaved rest x = Option.none :=
      ih (fun q hq => h q (by simp [hq]))
    simp only [lastSaved, hrest]
    rw [if_neg (fun hc => hp hc.symm)]

/-- Every `old_bindings` entry is for a declared name of the block. -/
theorem evalDeclsWith_names (ev : Expr → State → Option (State × F64)) :
    ∀ (decls : List (String × Option Expr)) (st st1 : State) (olds : List (String × Nat)),
      evalDeclsWith ev decls st = some (st1, olds) →
      ∀ p ∈ olds, p.1 ∈ decls.map Prod.fst := by
  intro decls
  induction decls with
  | nil =>
    intro st st1 olds h p hp
    simp only [evalDeclsWith, Option.some.injEq, Prod.mk.injEq] at h
    obtain ⟨_, h2⟩ := h
    subst h2
    cases hp
  | cons d ds ih =>
    intro st st1 olds h p hp
    obtain ⟨name, initE⟩ := d
    rw [evalDeclsWith_cons] at h
    rw [Option.bind_eq_some] at h
    obtain ⟨pi, _, h⟩ := h
    rw [Option.bind_eq_some] at h
    obtain ⟨q, hq, hfin⟩ := h
    simp only [Option.some.injEq, Prod.mk.injEq] at hfin
    obtain ⟨_, holds⟩ := hfin
    subst holds
    rw [List.mem_append] at hp
    cases hp with
    | inl hsv =>
      cases hov : pi.1.vars name with
      | some o =>
        rw [hov] at hsv
        simp only [List.mem_singleton] at hsv
        subst hsv
        simp
      | none =>
        rw [hov] at hsv
        simp at hsv
    | inr hq2 =>
      have := ih _ q.1 q.2 (by exact hq) p hq2
      simp [this]

/-- The declaration loop over a concatenation splits into the two loops with
the saved bindings concatenated. -/
theorem evalDeclsWith_append (ev : Expr → State → Option (State × F64)) :
    ∀ (l1 l2 : List (String × Option Expr)) (st : State),
      evalDeclsWith ev (l1 ++ l2) st =
        (evalDeclsWith ev l1 st).bind (fun p =>
          (evalDeclsWith ev l2 p.1).bind (fun q => some (q.1, p.2 ++ q.2))) := by
  intro l1
  induction l1 with
  | nil =>
    intro l2 st
    simp only [List.nil_append, evalDeclsWith, Option.some_bind]
    cases h2 : evalDeclsWith ev l2 st with
    | none => rfl
    | some q => simp
  | cons d ds ih =>
    intro l2 st
    obtain ⟨name, initE⟩ := d
    rw [List.cons_append, evalDeclsWith_cons, evalDeclsWith_cons]
    cases hi : initVal ev initE st with
    | none => rfl
    | some pi =>
      simp only [Option.some_bind, ih]
      cases hds : evalDeclsWith ev ds
          (State.mk (pi.1.store ++ [pi.2])
            (insertVar pi.1.vars name pi.1.store.length) pi.1.out) with
      | none => rfl
      | some q4 =>
        simp only [Option.some_bind]
        cases hl2 : evalDeclsWith ev l2 q4.1 with
        | none => rfl
        | some q5 => simp [List.append_assoc]

/-- A run-time call returns to exactly the caller's variable mapping: the
bodiless (FFI) branch leaves the mapping untouched, and the defined branch
reinstates `callerVars` wholesale. -/
theorem callFn_vars_restore (ev : Expr → State → Option (State × F64)) (f : Function)
    (vals : List F64) (s st' : State) (v : F64)
    (h : callFn ev s.vars f vals s = some (st', v)) : st'.vars = s.vars := by
  unfold callFn at h
  split at h
  · unfold ffiCall at h
    split at h
    · simp only [Option.some.injEq, Prod.mk.injEq] at h
      obtain ⟨h1, _⟩ := h
      subst h1
      rfl
    · simp only [Option.some.injEq, Prod.mk.injEq] at h
      obtain ⟨h1, _⟩ := h
      subst h1
      rfl
    · exact absurd h (by simp)
  · simp only [Option.bind_eq_some, Option.some.injEq, Prod.mk.injEq] at h
    obtain ⟨q, _, h2, _⟩ := h
    subst h2
    rfl

/-- C4 counterexample: a var-block binding whose name had NO prior mapping is
NOT removed on scope exit: after evaluating `var y = 1 in 2` from a state with
`y` unbound, `y` is still mapped (to the freshly allocated cell 0).  The
restore loop of `Expr::Var` (src/codegen.rs lines 303-305) re-inserts only
shadowed bindings and never removes fresh ones. -/
theorem C4_counterexample :
    (evalExpr [] 10 (Expr.Var [("y", some (Expr.Number (F64.num 1 1)))]
        (Expr.Number (F64.num 2 1))) initState).map (fun p => p.1.vars "y") =
      some (some 0) ∧
      (some (some 0) : Option (Option Nat)) ≠ some Option.none := by
  exact ⟨rfl, by decide⟩

/-- C4 amended, per scope-introducing construct.  For-loops: the
induction-variable binding is restored exactly once on exit to the prior
mapping — the mapping in force after the start expression was evaluated —
re-inserted if it existed there, removed if it did not.  Var-blocks: every
binding that shadowed a prior mapping (the mapping in force after that
binding's initialiser — the default 0.0 initialiser included — was evaluated)
is restored exactly once on exit, the restore of a name's last declaration
winning; but a binding whose name had no prior mapping is NOT removed — the
restore loop leaves the body-exit mapping for it untouched.  Parameter
bindings: the mapping is cleared at function entry, so parameters shadow
nothing; at run time a call executes with only its parameters bound, and the
caller's entire mapping (as of after argument evaluation) is reinstated
exactly once when the call returns, so no parameter binding survives the
call. -/
theorem C4_scope_restoration :
    (∀ (M : List Function) (fuel : Nat) (ident : String) (s e : Expr) (stp : Option Expr)
        (body : Expr) (st st' st1 : State) (v sv : F64),
      evalExpr M (fuel + 1) (Expr.For ident s e stp body) st = some (st', v) →
      evalExpr M fuel s (allocCell st).1 = some (st1, sv) →
      st'.vars ident = st1.vars ident) ∧
    (∀ (M : List Function) (fuel : Nat) (pre post : List (String × Option Expr)) (x : String)
        (initE : Option Expr) (body : Expr) (st stPre stX st' : State) (v iv : F64)
        (oldsPre : List (String × Nat)) (o : Nat),
      evalExpr M (fuel + 1) (Expr.Var (pre ++ (x, initE) :: post) body) st = some (st', v) →
      evalDeclsWith (fun e' st'' => evalExpr M fuel e' st'') pre st = some (stPre, oldsPre) →
      initVal (fun e' st'' => evalExpr M fuel e' st'') initE stPre = some (stX, iv) →
      stX.vars x = some o →
      x ∉ post.map Prod.fst →
      st'.vars x = some o) ∧
    (∀ (M : List Function) (fuel : Nat) (pre post : List (String × Option Expr)) (x : String)
        (initE : Option Expr) (body : Expr) (st stPre stX st' : State) (v iv : F64)
        (oldsPre : List (String × Nat)),
      evalExpr M (fuel + 1) (Expr.Var (pre ++ (x, initE) :: post) body) st = some (st', v) →
      evalDeclsWith (fun e' st'' => evalExpr M fuel e' st'') pre st = some (stPre, oldsPre) →
      initVal (fun e' st'' => evalExpr M fuel e' st'') initE stPre = some (stX, iv) →
      stX.vars x = Option.none →
      x ∉ pre.map Prod.fst →
      x ∉ post.map Prod.fst →
      ∃ (st1 stB : State) (olds : List (String × Nat)) (bv : F64),
        evalDeclsWith (fun e' st'' => evalExpr M fuel e' st'') (pre ++ (x, initE) :: post) st =
          some (st1, olds) ∧
        evalExpr M fuel body st1 = some (stB, bv) ∧
        st'.vars x = stB.vars x) ∧
    (∀ (M : List Function) (fuel : Nat) (idf : String) (args : List Expr)
        (st st' st1 : State) (v : F64) (vals : List F64),
      evalExpr M (fuel + 1) (Expr.Call idf args) st = some (st', v) →
      evalArgsWith (fun e' st'' => evalExpr M fuel e' st'') args st = some (st1, vals) →
      st'.vars = st1.vars) := by
  refine ⟨?_, ?_, ?_, ?_⟩
  · intro M fuel ident s e stp body st st' st1 v sv h1 h2
    rw [evalExpr_For_unfold, h2] at h1
    simp only [Option.some_bind, Option.bind_eq_some] at h1
    obtain ⟨st4, _, hfin⟩ := h1
    simp only [Option.some.injEq, Prod.mk.injEq] at hfin
    obtain ⟨hst, _⟩ := hfin
    subst hst
    rcases hold : st1.vars ident with _ | o <;>
      simp [storeCell, hold, insertVar, removeVar]
  · intro M fuel pre post x initE body st stPre stX st' v iv oldsPre o h1 h2 h3 h4 h5
    rw [evalExpr_Var_unfold, evalDeclsWith_append, h2] at h1
    simp only [Option.some_bind] at h1
    rw [evalDeclsWith_cons, h3] at h1
    simp only [Option.some_bind] at h1
    try dsimp only at h1
    rw [h4] at h1
    simp only [Option.bind_eq_some] at h1
    obtain ⟨pr, ⟨q1, ⟨qpost, hqpost, hsome⟩, hq1b⟩, qb, hqb, hfin⟩ := h1
    simp only [Option.some.injEq] at hsome hq1b
    subst hsome
    subst hq1b
    simp only [Option.some.injEq, Prod.mk.injEq] at hfin
    obtain ⟨hst, _⟩ := hfin
    rw [← hst]
    show restoreBindings (oldsPre ++ ([(x, o)] ++ qpost.2)) qb.1.vars x = some o
    rw [restoreBindings_lookup, lastSaved_append]
    have hnone : lastSaved qpost.2 x = Option.none := by
      refine lastSaved_none_of qpost.2 x (fun p hp hc => ?_)
      have hmem := evalDeclsWith_names _ post _ qpost.1 qpost.2 (by exact hqpost) p hp
      rw [hc] at hmem
      exact h5 hmem
    rw [lastSaved_append, hnone]
    simp [lastSaved]
  · intro M fuel pre post x initE body st stPre stX st' v iv oldsPre h1 h2 h3 h4 h5 h6
    rw [evalExpr_Var_unfold, evalDeclsWith_append, h2] at h1
    simp only [Option.some_bind] at h1
    rw [evalDeclsWith_cons, h3] at h1
    simp only [Option.some_bind] at h1
    try dsimp only at h1
    rw [h4] at h1
    simp only [Option.bind_eq_some] at h1
    obtain ⟨pr, ⟨q1, ⟨qpost, hqpost, hsome⟩, hq1b⟩, qb, hqb, hfin⟩ := h1
    simp only [Option.some.injEq] at hsome hq1b
    subst hsome
    subst hq1b
    simp only [Option.some.injEq, Prod.mk.injEq] at hfin
    obtain ⟨hst, _⟩ := hfin
    have hdecls : evalDeclsWith (fun e' st'' => evalExpr M fuel e' st'')
        (pre ++ (x, initE) :: post) st =
        some (qpost.1, oldsPre ++ ([] ++ qpost.2)) := by
      rw [evalDeclsWith_append, h2]
      simp only [Option.some_bind]
      rw [evalDeclsWith_cons, h3]
      simp only [Option.some_bind]
      try dsimp only
      rw [h4]
      try dsimp only
      rw [hqpost]
      rfl
    refine ⟨qpost.1, qb.1, oldsPre ++ ([] ++ qpost.2), qb.2, hdecls, by exact hqb, ?_⟩
    rw [← hst]
    show restoreBindings (oldsPre ++ ([] ++ qpost.2)) qb.1.vars x = qb.1.vars x
    rw [restoreBindings_lookup]
    have hpostnone : lastSaved qpost.2 x = Option.none := by
      refine lastSaved_none_of qpost.2 x (fun p hp hc => ?_)
      have hmem := evalDeclsWith_names _ post _ qpost.1 qpost.2 (by exact hqpost) p hp
      rw [hc] at hmem
      exact h6 hmem
    have hprenone : lastSaved oldsPre x = Option.none := by
      refine lastSaved_none_of oldsPre x (fun p hp hc => ?_)
      have hmem := evalDeclsWith_names _ pre _ stPre oldsPre (by exact h2) p hp
      rw [hc] at hmem
      exact h5 hmem
    rw [lastSaved_append, lastSaved_append, hpostnone]
    simp [lastSaved, hprenone]
  · intro M fuel idf args st st' st1 v vals h1 h2
    rw [evalExpr_Call_unfold] at h1
    rw [Option.bind_eq_some] at h1
    obtain ⟨f, _, h1⟩ := h1
    rw [Option.bind_eq_some] at h1
    obtain ⟨q, hq, hcall⟩ := h1
    rw [h2] at hq
    simp only [Option.some.injEq] at hq
    subst hq
    exact callFn_vars_restore (fun e' st'' => evalExpr M fuel e' st'') f vals st1 st' v
      (by exact hcall)

/-- C4 witness: the for-loop part on `for i = 1, 0, 1 in 9` from the empty
state (fresh `i` removed on exit); the shadowed var-block part on the
two-declaration block `var y, x = 1 in 2` (default initialiser for `y`,
shadowed `x` restored); the fresh var-block part on `var y = 1 in 2` from the
empty state (`y` not removed); and the call part on `printd(3)` (the caller's
mapping reinstated on return). -/
theorem C4_witness :
    ((evalExpr [] 10 (Expr.For "i" (Expr.Number (F64.num 1 1)) (Expr.Number (F64.num 0 1))
        (some (Expr.Number (F64.num 1 1))) (Expr.Number (F64.num 9 1))) initState =
      some (⟨[F64.num 2 1], removeVar (insertVar emptyVars "i" 0) "i", []⟩, F64.num 0 1) ∧
      removeVar (insertVar emptyVars "i" 0) "i" "i" = Option.none) ∧
    (evalExpr [] 10 (Expr.Var [("y", Option.none), ("x", some (Expr.Number (F64.num 1 1)))]
        (Expr.Number (F64.num 2 1))) ⟨[F64.num 5 1], insertVar emptyVars "x" 0, []⟩ =
      some (⟨[F64.num 5 1, F64.num 0 1, F64.num 1 1],
        insertVar (insertVar (insertVar (insertVar emptyVars "x" 0) "y" 1) "x" 2) "x" 0,
        []⟩, F64.num 2 1) ∧
      insertVar (insertVar (insertVar (insertVar emptyVars "x" 0) "y" 1) "x" 2) "x" 0 "x" =
        some 0)) ∧
    (evalExpr [] 10 (Expr.Var [("y", some (Expr.Number (F64.num 1 1)))]
        (Expr.Number (F64.num 2 1))) initState =
      some (⟨[F64.num 1 1], insertVar emptyVars "y" 0, []⟩, F64.num 2 1) ∧
      ∃ (st1 stB : State) (olds : List (String × Nat)) (bv : F64),
        evalDeclsWith (fun e' st'' => evalExpr [] 9 e' st'')
            ([] ++ ("y", some (Expr.Number (F64.num 1 1))) :: []) initState =
          some (st1, olds) ∧
        evalExpr [] 9 (Expr.Number (F64.num 2 1)) st1 = some (stB, bv) ∧
        (⟨[F64.num 1 1], insertVar emptyVars "y" 0, []⟩ : State).vars "y" = stB.vars "y") ∧
    (evalExpr [printdDecl] 10 (Expr.Call "printd" [Expr.Number (F64.num 3 1)]) initState =
      some (⟨[], emptyVars, [F64.num 3 1]⟩, F64.num 0 1) ∧
      (⟨[], emptyVars, [F64.num 3 1]⟩ : State).vars = initState.vars) := by
  refine ⟨⟨⟨rfl, ?_⟩, ⟨rfl, ?_⟩⟩, ⟨rfl, ?_⟩, ⟨rfl, ?_⟩⟩
  · exact (C4_scope_restoration.1 [] 9 "i" (Expr.Number (F64.num 1 1))
      (Expr.Number (F64.num 0 1)) (some (Expr.Number (F64.num 1 1)))
      (Expr.Number (F64.num 9 1)) initState
      ⟨[F64.num 2 1], removeVar (insertVar emptyVars "i" 0) "i", []⟩
      (allocCell initState).1 (F64.num 0 1) (F64.num 1 1) rfl rfl).trans rfl
  · exact C4_scope_restoration.2.1 [] 9 [("y", Option.none)] []
      "x" (some (Expr.Number (F64.num 1 1))) (Expr.Number (F64.num 2 1))
      ⟨[F64.num 5 1], insertVar emptyVars "x" 0, []⟩
      ⟨[F64.num 5 1, F64.num 0 1], insertVar (insertVar emptyVars "x" 0) "y" 1, []⟩
      ⟨[F64.num 5 1, F64.num 0 1], insertVar (insertVar emptyVars "x" 0) "y" 1, []⟩
      ⟨[F64.num 5 1, F64.num 0 1, F64.num 1 1],
        insertVar (insertVar (insertVar (insertVar emptyVars "x" 0) "y" 1) "x" 2) "x" 0, []⟩
      (F64.num 2 1) (F64.num 1 1) [] 0 rfl rfl rfl rfl (by simp)
  · exact C4_scope_restoration.2.2.1 [] 9 [] [] "y" (some (Expr.Number (F64.num 1 1)))
      (Expr.Number (F64.num 2 1)) initState initState initState
      ⟨[F64.num 1 1], insertVar emptyVars "y" 0, []⟩ (F64.num 2 1) (F64.num 1 1) []
      rfl rfl rfl rfl (by simp) (by simp)
  · exact C4_scope_restoration.2.2.2 [printdDecl] 9 "printd" [Expr.Number (F64.num 3 1)]
      initState ⟨[], emptyVars, [F64.num 3 1]⟩ initState (F64.num 0 1) [F64.num 3 1]
      rfl rfl

/-! ## Claim C8 — binary-operator prototypes extend the live table -/

/-- C8: `parse_proto` on a binary-operator prototype immediately returns the
table extended with `(char → declared precedence as i8)`, defaulting to 30
when no precedence number is given; and the entry is visible to later
expression parses of the same unit: after `def binary! 5 (x y) x`, the
expression `a ! b` parses as a binary node. -/
theorem C8_binary_proto_inserts_precedence :
    (∀ (tbl : PrecTable) (c : Char) (q : F64) (a b : String) (rest : List Token),
      ∃ (F : Function) (tbl' : PrecTable),
        parse_proto tbl (Token.Binary c :: Token.Number q :: Token.LParen '(' ::
            Token.Identifier a :: Token.Identifier b :: Token.RParen ')' :: rest) =
          .ok (F, tbl', rest) ∧ tbl' c = some (F64.as_i8 q)) ∧
    (∀ (tbl : PrecTable) (c : Char) (a b : String) (rest : List Token),
      ∃ (F : Function) (tbl' : PrecTable),
        parse_proto tbl (Token.Binary c :: Token.LParen '(' :: Token.Identifier a ::
            Token.Identifier b :: Token.RParen ')' :: rest) =
          .ok (F, tbl', rest) ∧ tbl' c = some 30) ∧
    parsedFns (parse 30 new_precedence []
        [Token.Def, Token.Binary '!', Token.Number (F64.num 5 1), Token.LParen '(',
         Token.Identifier "x", Token.Identifier "y", Token.RParen ')', Token.Identifier "x",
         Token.Identifier "a", Token.Bang '!', Token.Identifier "b", Token.Eof]) =
      some [⟨("binary").push '!', ["x", "y"], Expr.Variable "x", true, some (F64.num 5 1)⟩,
            ⟨"_top_level_expr", [],
             Expr.BinOp (Expr.Variable "a") (Token.Bang '!') (Expr.Variable "b"),
             false, Option.none⟩] := by
  refine ⟨?_, ?_, rfl⟩
  · intro tbl c q a b rest
    refine ⟨⟨("binary").push c, [a, b], Expr.None, true, some q⟩,
      insertPrec tbl c (F64.as_i8 q), rfl, ?_⟩
    simp [insertPrec]
  · intro tbl c a b rest
    refine ⟨⟨("binary").push c, [a, b], Expr.None, true, Option.none⟩,
      insertPrec tbl c (F64.as_i8 (F64.num 30 1)), rfl, ?_⟩
    simp [insertPrec]
    rfl

/-- C8 witness: the general parts instantiated at the concrete prototype
`binary^ 7 (u v)` and at `binary$ (u v)` with the seeded table. -/
theorem C8_witness :
    (∃ (F : Function) (tbl' : PrecTable),
      parse_proto new_precedence [Token.Binary '^', Token.Number (F64.num 7 1),
          Token.LParen '(', Token.Identifier "u", Token.Identifier "v", Token.RParen ')',
          Token.Eof] =
        .ok (F, tbl', [Token.Eof]) ∧ tbl' '^' = some (F64.as_i8 (F64.num 7 1))) ∧
    (∃ (F : Function) (tbl' : PrecTable),
      parse_proto new_precedence [Token.Binary '$', Token.LParen '(', Token.Identifier "u",
          Token.Identifier "v", Token.RParen ')', Token.Eof] =
        .ok (F, tbl', [Token.Eof]) ∧ tbl' '$' = some 30) := by
  exact ⟨C8_binary_proto_inserts_precedence.1 new_precedence '^' (F64.num 7 1) "u" "v"
      [Token.Eof],
    C8_binary_proto_inserts_precedence.2.1 new_precedence '$' "u" "v" [Token.Eof]⟩

/-! ## Claim C1 — what the distinguished entry evaluates -/

/-- `lastTopIdx` is `none` exactly when the unit has no top-level expression. -/
theorem lastTopIdx_none_iff (l : List Function) :
    lastTopIdx l = Option.none ↔
      l.filter (fun f => f.name == "_top_level_expr") = [] := by
  induction l with
  | nil => simp [lastTopIdx]
  | cons f rest ih =>
    cases hrest : lastTopIdx rest with
    | some j =>
      have : rest.filter (fun f => f.name == "_top_level_expr") ≠ [] := by
        intro hnil
        rw [← ih] at hnil
        rw [hrest] at hnil
        cases hnil
      cases hname : (f.name == "_top_level_expr") <;>
        simp [lastTopIdx, hrest, List.filter_cons, hname, this]
    | none =>
      cases hname : (f.name == "_top_level_expr") <;>
        simp [lastTopIdx, hrest, List.filter_cons, hname, ih.mp hrest]

/-- The enumerate loop skips every suffix that contains no top-level
expression, whatever the target index. -/
theorem runUnitGo_no_tle (M : List Function) (fuel : Nat) :
    ∀ (l : List Function), l.filter (fun f => f.name == "_top_level_expr") = [] →
      ∀ (lastIdx : Option Nat) (i : Nat) (st : State) (lastRes : Option F64),
        runUnitGo M fuel lastIdx i l st lastRes = some (st, lastRes.getD (F64.num 0 1)) := by
  intro l
  induction l with
  | nil => intro _ lastIdx i st lastRes; rfl
  | cons f rest ih =>
    intro hfil lastIdx i st lastRes
    rw [List.filter_cons] at hfil
    cases hname : (f.name == "_top_level_expr") with
    | true => rw [hname] at hfil; simp at hfil
    | false =>
      rw [hname] at hfil
      simp only [Bool.false_eq_true, if_false] at hfil
      simp [runUnitGo, hname]
      exact ih hfil lastIdx (i + 1) st lastRes

/-- The enumerate loop with target `rposition`, started at any base index,
evaluates exactly the body of the last top-level expression (or nothing). -/
theorem runUnitGo_main (M : List Function) (fuel : Nat) :
    ∀ (l : List Function) (i : Nat) (st : State) (lastRes : Option F64),
      runUnitGo M fuel ((lastTopIdx l).map (· + i)) i l st lastRes =
        match lastTopBody l with
        | Option.none => some (st, lastRes.getD (F64.num 0 1))
        | some e => evalExpr M fuel e st := by
  intro l
  induction l with
  | nil => intro i st lastRes; simp [lastTopIdx, lastTopBody, runUnitGo]
  | cons f rest ih =>
    intro i st lastRes
    cases hname : (f.name == "_top_level_expr") with
    | false =>
      cases hrest : lastTopIdx rest with
      | some j =>
        have hmap : (lastTopIdx (f :: rest)).map (· + i) = some (j + (i + 1)) := by
          simp [lastTopIdx, hrest]
          omega
        rw [hmap]
        have hmap2 : (some (j + (i + 1)) : Option Nat) = (lastTopIdx rest).map (· + (i + 1)) := by
          simp [hrest]
        simp only [runUnitGo, hname]
        rw [hmap2, ih (i + 1) st lastRes]
        simp [lastTopBody, List.filter_cons, hname]
      | none =>
        have hmap : (lastTopIdx (f :: rest)).map (· + i) = Option.none := by
          simp [lastTopIdx, hrest, hname]
        rw [hmap]
        simp only [runUnitGo, hname]
        have hmap2 : (Option.none : Option Nat) = (lastTopIdx rest).map (· + (i + 1)) := by
          simp [hrest]
        rw [hmap2, ih (i + 1) st lastRes]
        simp [lastTopBody, List.filter_cons, hname]
    | true =>
      cases hrest : lastTopIdx rest with
      | some j =>
        have hmap : (lastTopIdx (f :: rest)).map (· + i) = some (j + 1 + i) := by
          simp [lastTopIdx, hrest]
        rw [hmap]
        simp only [runUnitGo, hname]
        have hne : ¬ (some i = some (j + 1 + i)) := by
          intro hc
          injection hc with hc
          omega
        rw [if_neg hne]
        have hmap2 : (some (j + 1 + i) : Option Nat) = (lastTopIdx rest).map (· + (i + 1)) := by
          simp [hrest]
          omega
        rw [hmap2, ih (i + 1) st lastRes]
        have hfil : rest.filter (fun f => f.name == "_top_level_expr") ≠ [] := by
          intro hnil
          rw [← lastTopIdx_none_iff] at hnil
          rw [hrest] at hnil
          cases hnil
        obtain ⟨x, xs, hx⟩ : ∃ x xs,
            rest.filter (fun f => f.name == "_top_level_expr") = x :: xs := by
          cases hcase : rest.filter (fun f => f.name == "_top_level_expr") with
          | nil => exact absurd hcase hfil
          | cons x xs => exact ⟨x, xs, rfl⟩
        simp [lastTopBody, List.filter_cons, hname, hx]
      | none =>
        have hmap : (lastTopIdx (f :: rest)).map (· + i) = some i := by
          simp [lastTopIdx, hrest, hname]
        rw [hmap]
        simp only [runUnitGo, hname, if_pos rfl]
        have hfil : rest.filter (fun f => f.name == "_top_level_expr") = [] :=
          (lastTopIdx_none_iff rest).mp hrest
        have hbody : lastTopBody (f :: rest) = some f.body := by
          simp [lastTopBody, List.filter_cons, hname, hfil]
        rw [hbody]
        cases heval : evalExpr M fuel f.body st with
        | none => simp [runUnitGo, hname, heval]
        | some p =>
          cases p with
          | mk st1 v =>
            simp [runUnitGo, hname, heval, runUnitGo_no_tle M fuel rest hfil]

/-- C1 amended: the distinguished entry evaluates ONLY the LAST top-level
expression of the unit — earlier top-level expressions are never lowered into
it (`CodegenContext::codegen` lowers a `_top_level_expr` only when its index
equals `rposition`) — and returns its value; if the unit contains no
top-level expression, the entry returns zero. -/
theorem C1_entry_evaluates_only_last (fs : List Function) (fuel : Nat) :
    runUnit fs fuel =
      match lastTopBody fs with
      | Option.none => some (initState, F64.num 0 1)
      | some e => evalExpr fs fuel e initState := by
  have hmap : lastTopIdx fs = (lastTopIdx fs).map (· + 0) := by
    cases lastTopIdx fs <;> simp
  have h := runUnitGo_main fs fuel fs 0 initState Option.none
  rw [← hmap] at h
  exact h

/-- C1 counterexample: in the unit `extern printd(x); printd(1); 2` the code's
entry (`runUnit`) never evaluates the first top-level expression — its output
trace is empty — while the spec's entry (`runUnitSpec`, which sequentially
evaluates every top-level expression) emits 1.0; both return 2.0. -/
theorem C1_counterexample :
    evalOut (runUnit [printdDecl,
        ⟨"_top_level_expr", [], Expr.Call "printd" [Expr.Number (F64.num 1 1)], false,
          Option.none⟩,
        ⟨"_top_level_expr", [], Expr.Number (F64.num 2 1), false, Option.none⟩] 10) =
      some ([], F64.num 2 1) ∧
    evalOut (runUnitSpec [printdDecl,
        ⟨"_top_level_expr", [], Expr.Call "printd" [Expr.Number (F64.num 1 1)], false,
          Option.none⟩,
        ⟨"_top_level_expr", [], Expr.Number (F64.num 2 1), false, Option.none⟩] 10) =
      some ([F64.num 1 1], F64.num 2 1) ∧
    (some ([], F64.num 2 1) : Option (List F64 × F64)) ≠
      some ([F64.num 1 1], F64.num 2 1) := by
  exact ⟨rfl, rfl, by decide⟩

/-! ## Claim C10 — a lowered loop runs its body at least once

The loop lowering emits an unconditional branch into the loop block and tests
the end condition only at the block's end, so the first trip through the body
is unconditional.  We state this as: whenever a `For` evaluation succeeds, the
body's first evaluation succeeded, and its effects (its output trace) persist
into the loop's final state.  The persistence argument needs that evaluation
only ever appends to the output trace. -/

/-- An evaluation function that only appends to the output trace. -/
def OutMono (ev : Expr → State → Option (State × F64)) : Prop :=
  ∀ e st st' v, ev e st = some (st', v) → st.out <+: st'.out

theorem ffiCall_out_mono (name : String) (vals : List F64) (st st' : State) (v : F64)
    (h : ffiCall name vals st = some (st', v)) : st.out <+: st'.out := by
  unfold ffiCall at h
  split at h
  · simp only [Option.some.injEq, Prod.mk.injEq] at h
    obtain ⟨h1, _⟩ := h
    subst h1
    exact ⟨_, rfl⟩
  · simp only [Option.some.injEq, Prod.mk.injEq] at h
    obtain ⟨h1, _⟩ := h
    subst h1
    exact ⟨_, rfl⟩
  · exact absurd h (by simp)

theorem evalArgsWith_out_mono (ev : Expr → State → Option (State × F64)) (hev : OutMono ev) :
    ∀ (l : List Expr) (st st' : State) (vs : List F64),
      evalArgsWith ev l st = some (st', vs) → st.out <+: st'.out := by
  intro l
  induction l with
  | nil =>
    intro st st' vs h
    simp only [evalArgsWith, Option.some.injEq, Prod.mk.injEq] at h
    obtain ⟨h1, _⟩ := h
    subst h1
    exact List.prefix_refl _
  | cons e es ih =>
    intro st st' vs h
    simp only [evalArgsWith, Option.bind_eq_some, Option.some.injEq, Prod.mk.injEq] at h
    obtain ⟨p, h1, q, h2, h4, _⟩ := h
    subst h4
    exact (hev e st p.1 p.2 h1).trans (ih p.1 q.1 q.2 h2)

theorem allocParams_out (vals : List F64) :
    ∀ (st : State), (allocParams st vals).1.out = st.out := by
  induction vals with
  | nil => intro st; rfl
  | cons v vs ih => intro st; exact ih _

theorem callFn_out_mono (ev : Expr → State → Option (State × F64)) (hev : OutMono ev)
    (cv : String → Option Nat) (f : Function) (vals : List F64) (st st' : State) (v : F64)
    (h : callFn ev cv f vals st = some (st', v)) : st.out <+: st'.out := by
  unfold callFn at h
  split at h
  · exact ffiCall_out_mono f.name vals st st' v h
  · simp only [Option.bind_eq_some, Option.some.injEq, Prod.mk.injEq] at h
    obtain ⟨q, h1, h3, _⟩ := h
    subst h3
    have hb := hev f.body _ q.1 q.2 h1
    have ha := allocParams_out vals {st with vars := emptyVars}
    dsimp only at hb ha ⊢
    rw [ha] at hb
    exact hb

theorem forStep_out_mono (ev : Expr → State → Option (State × F64)) (hev : OutMono ev)
    (addr : Nat) (endE : Expr) (stp : Option Expr) (body : Expr) (st st' : State) (c : Bool)
    (h : forStep ev addr endE stp body st = some (st', c)) : st.out <+: st'.out := by
  unfold forStep at h
  simp only [Option.bind_eq_some, Option.some.injEq, Prod.mk.injEq] at h
  obtain ⟨pb, hb, ps, hs, pe, he, cur, hcur, h1, _⟩ := h
  subst h1
  have m1 := hev body st pb.1 pb.2 hb
  have m2 : pb.1.out <+: ps.1.out := by
    cases stp with
    | some s => exact hev s pb.1 ps.1 ps.2 hs
    | none =>
      cases hs
      exact List.prefix_refl _
  have m3 := hev endE ps.1 pe.1 pe.2 he
  exact ((m1.trans m2).trans m3)

theorem iterateLoop_out_mono (stepF : State → Option (State × Bool))
    (hstep : ∀ st st' c, stepF st = some (st', c) → st.out <+: st'.out) :
    ∀ (n : Nat) (st st' : State), iterateLoop stepF n st = some st' → st.out <+: st'.out := by
  intro n
  induction n with
  | zero => intro st st' h; exact absurd h (by simp [iterateLoop])
  | succ m ih =>
    intro st st' h
    simp only [iterateLoop, Option.bind_eq_some] at h
    obtain ⟨p, h1, h2⟩ := h
    have m1 := hstep st p.1 p.2 h1
    cases hp : p.2 with
    | true =>
      rw [hp] at h2
      simp only [if_true] at h2
      exact m1.trans (ih p.1 st' h2)
    | false =>
      rw [hp] at h2
      simp only [Bool.false_eq_true, if_false, Option.some.injEq] at h2
      subst h2
      exact m1

theorem evalDeclsWith_out_mono (ev : Expr → State → Option (State × F64)) (hev : OutMono ev) :
    ∀ (l : List (String × Option Expr)) (st st' : State) (olds : List (String × Nat)),
      evalDeclsWith ev l st = some (st', olds) → st.out <+: st'.out := by
  intro l
  induction l with
  | nil =>
    intro st st' olds h
    simp only [evalDeclsWith, Option.some.injEq, Prod.mk.injEq] at h
    obtain ⟨h1, _⟩ := h
    subst h1
    exact List.prefix_refl _
  | cons d ds ih =>
    intro st st' olds h
    obtain ⟨name, initE⟩ := d
    simp only [evalDeclsWith, Option.bind_eq_some, Option.some.injEq, Prod.mk.injEq] at h
    obtain ⟨p, h1, q, h2, h4, _⟩ := h
    subst h4
    have m1 : st.out <+: p.1.out := by
      cases initE with
      | some e => exact hev e st p.1 p.2 (by exact h1)
      | none =>
        simp only [initVal, Option.some.injEq] at h1
        first
        | (rw [← h1]; exact List.prefix_refl _)
        | rw [← h1]
    exact m1.trans (ih (State.mk (p.1.store ++ [p.2])
      (insertVar p.1.vars name p.1.store.length) p.1.out) q.1 q.2 (by exact h2))

/-- Evaluation only ever appends to the output trace. -/
theorem evalExpr_out_mono (M : List Function) :
    ∀ (fuel : Nat) (e : Expr) (st st' : State) (v : F64),
      evalExpr M fuel e st = some (st', v) → st.out <+: st'.out := by
  intro fuel
  induction fuel with
  | zero => intro e st st' v h; exact absurd h (by simp [evalExpr])
  | succ fuel ih =>
    have hev : OutMono (fun e' st' => evalExpr M fuel e' st') :=
      fun e st st' v h => ih e st st' v h
    intro e st st' v h
    cases e with
    | Number w =>
      simp only [evalExpr, Option.some.injEq, Prod.mk.injEq] at h
      obtain ⟨h1, _⟩ := h
      subst h1
      exact List.prefix_refl _
    | Variable name =>
      simp only [evalExpr, bind, Option.bind_eq_some, Option.some.injEq, Prod.mk.injEq] at h
      obtain ⟨a, _, w, _, h4, _⟩ := h
      subst h4
      exact List.prefix_refl _
    | BinOp left op right =>
      simp only [evalExpr] at h
      split at h
      · simp only [bind, Option.bind_eq_some, Option.some.injEq, Prod.mk.injEq] at h
        obtain ⟨p, h1, a, _, h4, _⟩ := h
        subst h4
        exact ih right st p.1 p.2 h1
      · simp only [bind, Option.bind_eq_some] at h
        obtain ⟨p, h1, q, h2, h⟩ := h
        have m1 := (ih left st p.1 p.2 h1).trans (ih right p.1 q.1 q.2 h2)
        split at h
        · split at h
          · exact m1.trans (callFn_out_mono _ hev q.1.vars _ [p.2, q.2] q.1 st' v h)
          · split at h <;>
              first
              | (simp only [Option.some.injEq, Prod.mk.injEq] at h
                 obtain ⟨h4, _⟩ := h
                 subst h4
                 exact m1)
              | exact absurd h (by simp)
        · exact absurd h (by simp)
    | Call identifier args =>
      simp only [evalExpr, bind, Option.bind_eq_some] at h
      obtain ⟨fdef, _, q, h2, h3⟩ := h
      exact (evalArgsWith_out_mono _ hev args st q.1 q.2 h2).trans
        (callFn_out_mono _ hev q.1.vars fdef q.2 q.1 st' v h3)
    | If condition thenE els =>
      simp only [evalExpr, bind, Option.bind_eq_some] at h
      obtain ⟨p, h1, h2⟩ := h
      have m1 := ih condition st p.1 p.2 h1
      split at h2
      · exact m1.trans (ih thenE p.1 st' v h2)
      · exact m1.trans (ih els p.1 st' v h2)
    | Unary op left =>
      simp only [evalExpr, bind, Option.bind_eq_some] at h
      obtain ⟨p, h1, fdef, _, h3⟩ := h
      exact (ih left st p.1 p.2 h1).trans
        (callFn_out_mono _ hev p.1.vars fdef [p.2] p.1 st' v h3)
    | For ident s e stp body =>
      rw [evalExpr_For_unfold] at h
      rw [Option.bind_eq_some] at h
      obtain ⟨p, h1, h⟩ := h
      rw [Option.bind_eq_some] at h
      obtain ⟨st4, h2, h3⟩ := h
      simp only [Option.some.injEq, Prod.mk.injEq] at h3
      obtain ⟨h4, _⟩ := h3
      subst h4
      have m1 : st.out <+: p.1.out := ih s (allocCell st).1 p.1 p.2 h1
      have m2 := iterateLoop_out_mono _
        (fun sa sb cc hs => forStep_out_mono _ hev (allocCell st).2 e stp body sa sb cc hs)
        fuel _ st4 h2
      exact m1.trans m2
    | Var varnames body =>
      simp only [evalExpr, bind, Option.bind_eq_some, Option.some.injEq, Prod.mk.injEq] at h
      obtain ⟨p, h1, q, h2, h4, _⟩ := h
      subst h4
      exact (evalDeclsWith_out_mono _ hev varnames st p.1 p.2 h1).trans
        (ih body p.1 q.1 q.2 h2)
    | None => exact absurd h (by simp [evalExpr])

/-- Given the body's evaluation, the rest of a loop trip only extends the
trace: a successful `forStep` contains a successful first body evaluation
whose output persists. -/
theorem forStep_first_body (ev : Expr → State → Option (State × F64)) (hev : OutMono ev)
    (addr : Nat) (endE : Expr) (stp : Option Expr) (body : Expr) (st st' : State) (c : Bool)
    (h : forStep ev addr endE stp body st = some (st', c)) :
    ∃ stb bv, ev body st = some (stb, bv) ∧ stb.out <+: st'.out := by
  unfold forStep at h
  simp only [Option.bind_eq_some, Option.some.injEq, Prod.mk.injEq] at h
  obtain ⟨pb, hb, ps, hs, pe, he, cur, hcur, h1, _⟩ := h
  subst h1
  refine ⟨pb.1, pb.2, hb, ?_⟩
  have m2 : pb.1.out <+: ps.1.out := by
    cases stp with
    | some s => exact hev s pb.1 ps.1 ps.2 hs
    | none =>
      cases hs
      exact List.prefix_refl _
  exact m2.trans (hev endE ps.1 pe.1 pe.2 he)

/-- C10: whenever a lowered bounded loop's evaluation succeeds — whatever the
initial values of start, end condition and step — the loop body was evaluated
at least once: lowering branches unconditionally into the loop block and
evaluates the end condition only after the body has run, so the body's first
evaluation succeeds from the post-start state, and its effects persist into
the loop's final state. -/
theorem C10_loop_body_at_least_once (M : List Function) (fuel : Nat) (i : String)
    (s e : Expr) (stp : Option Expr) (b : Expr) (st st' : State) (v : F64)
    (h : evalExpr M (fuel + 1) (Expr.For i s e stp b) st = some (st', v)) :
    ∃ st1 sv stb bv,
      evalExpr M fuel s (allocCell st).1 = some (st1, sv) ∧
      evalExpr M fuel b (State.mk (storeCell st1 (allocCell st).2 sv).store
        (insertVar (storeCell st1 (allocCell st).2 sv).vars i (allocCell st).2)
        (storeCell st1 (allocCell st).2 sv).out) = some (stb, bv) ∧
      stb.out <+: st'.out := by
  have hev : OutMono (fun e' st' => evalExpr M fuel e' st') :=
    fun e st st' v hx => evalExpr_out_mono M fuel e st st' v hx
  rw [evalExpr_For_unfold] at h
  rw [Option.bind_eq_some] at h
  obtain ⟨p, h1, h⟩ := h
  rw [Option.bind_eq_some] at h
  obtain ⟨st4, h2, h3⟩ := h
  simp only [Option.some.injEq, Prod.mk.injEq] at h3
  obtain ⟨h4, _⟩ := h3
  cases fuel with
  | zero => exact absurd h1 (by simp [evalExpr])
  | succ m =>
    simp only [iterateLoop, Option.bind_eq_some] at h2
    obtain ⟨q, hstep, hrest⟩ := h2
    obtain ⟨stb, bv, hbody, hpre⟩ :=
      forStep_first_body _ hev (allocCell st).2 e stp b _ q.1 q.2 hstep
    have hq : q.1.out <+: st4.out := by
      cases hc : q.2 with
      | true =>
        rw [hc] at hrest
        simp only [if_true] at hrest
        exact iterateLoop_out_mono _
          (fun sa sb cc hx => forStep_out_mono _ hev (allocCell st).2 e stp b sa sb cc hx)
          m q.1 st4 hrest
      | false =>
        rw [hc] at hrest
        simp only [Bool.false_eq_true, if_false, Option.some.injEq] at hrest
        subst hrest
        exact List.prefix_refl _
    refine ⟨p.1, p.2, stb, bv, h1, hbody, ?_⟩
    have hout : st'.out = st4.out := by rw [← h4]
    rw [hout]
    exact (hpre.trans hq)

/-- C10 witness: the theorem applied to `for i = 1, 0, 1 in 9` (an end
condition that is false from the start) evaluated from the empty state. -/
theorem C10_witness :
    (evalExpr [] 10 (Expr.For "i" (Expr.Number (F64.num 1 1)) (Expr.Number (F64.num 0 1))
        (some (Expr.Number (F64.num 1 1))) (Expr.Number (F64.num 9 1))) initState =
      some (⟨[F64.num 2 1], removeVar (insertVar emptyVars "i" 0) "i", []⟩, F64.num 0 1)) ∧
    ∃ st1 sv stb bv,
      evalExpr [] 9 (Expr.Number (F64.num 1 1)) (allocCell initState).1 = some (st1, sv) ∧
      evalExpr [] 9 (Expr.Number (F64.num 9 1))
        (State.mk (storeCell st1 (allocCell initState).2 sv).store
          (insertVar (storeCell st1 (allocCell initState).2 sv).vars "i"
            (allocCell initState).2)
          (storeCell st1 (allocCell initState).2 sv).out) = some (stb, bv) ∧
      stb.out <+:
        (⟨[F64.num 2 1], removeVar (insertVar emptyVars "i" 0) "i", []⟩ : State).out := by
  exact ⟨rfl, C10_loop_body_at_least_once [] 9 "i" (Expr.Number (F64.num 1 1))
    (Expr.Number (F64.num 0 1)) (some (Expr.Number (F64.num 1 1)))
    (Expr.Number (F64.num 9 1)) initState
    ⟨[F64.num 2 1], removeVar (insertVar emptyVars "i" 0) "i", []⟩ (F64.num 0 1) rfl⟩

end RustKal
